import Mathlib

/-!
Verification of the RAG ingestion / retrieval / citation core of the
graph-chatbot repository.  Strings are modelled as lists of characters
(one `Char` per UTF-16 code unit of the JavaScript source; all concrete
inputs used below are ASCII, where the two coincide).  JavaScript
numbers that are used as array indices are modelled as `Int`/`Nat`.
-/

namespace GraphChatbot

/-- Strings of the JavaScript program, one `Char` per code unit. -/
abbrev Str := List Char

/-! ## JavaScript string primitives -/

/-- The ECMAScript whitespace class used by `\s`, `trim()`:
tab, LF, VT, FF, CR, space, NBSP, and the Unicode space separators,
line/paragraph separators and BOM. -/
def jsWs (c : Char) : Bool :=
  c.toNat = 9 ∨ c.toNat = 10 ∨ c.toNat = 11 ∨ c.toNat = 12 ∨ c.toNat = 13 ∨
  c.toNat = 32 ∨ c.toNat = 160 ∨ c.toNat = 0x1680 ∨
  (0x2000 ≤ c.toNat ∧ c.toNat ≤ 0x200A) ∨
  c.toNat = 0x2028 ∨ c.toNat = 0x2029 ∨ c.toNat = 0x202F ∨
  c.toNat = 0x205F ∨ c.toNat = 0x3000 ∨ c.toNat = 0xFEFF

/-- `String.prototype.trim()`: remove leading and trailing whitespace. -/
def jsTrim (s : Str) : Str :=
  ((s.dropWhile jsWs).reverse.dropWhile jsWs).reverse

/-- Helper for `collapseWs`: the flag records whether the previous character
was part of a whitespace run (whose single replacement space was already
emitted). -/
def collapseWsAux : Bool → Str → Str
  | _, [] => []
  | inRun, c :: t =>
    if jsWs c then
      if inRun then collapseWsAux true t else ' ' :: collapseWsAux true t
    else c :: collapseWsAux false t

/-- `text.replace(/\s+/g, ' ')`: each maximal whitespace run becomes one space. -/
def collapseWs (s : Str) : Str := collapseWsAux false s

/-- The ECMAScript index clamping of `String.prototype.slice`: a negative
index counts from the end, and everything is clamped into `[0, n]`. -/
def jsClamp (n : Int) (i : Int) : Nat :=
  (if i < 0 then max (n + i) 0 else min i n).toNat

/-- `String.prototype.slice(a, b)` with the ECMAScript clamping rules for
negative and out-of-range indices. -/
def jsSlice (s : Str) (a b : Int) : Str :=
  (s.drop (jsClamp s.length a)).take (jsClamp s.length b - jsClamp s.length a)

/-- `String.prototype.lastIndexOf(c)` for a single character: the greatest
index holding `c`, and `-1` if there is none. -/
def jsLastIndexOf (c : Char) : Str → Int
  | [] => -1
  | x :: t =>
    let r := jsLastIndexOf c t
    if r ≥ 0 then r + 1 else if x = c then 0 else -1

/-! ## Text chunker (`chunkText` in `lib/rag/utils`, shipped inside
`src/lib/db/migrations/0007_great_doctor_faustus.sql`)

```
while (start < text.length) {
  const end = Math.min(start + chunkSize, text.length);
  let chunk = text.slice(start, end);
  if (end < text.length) {
    const breakPoint = Math.max(lastIndexOf '.', '?', '!', '\n');
    if (breakPoint > chunkSize * 0.5) chunk = chunk.slice(0, breakPoint + 1);
  }
  chunks.push(chunk.trim());
  start = start + chunk.length - overlap;
}
return chunks.filter((chunk) => chunk.length > 0);
```

`breakPoint > chunkSize * 0.5` compares an integer with an exactly
representable float; over the integers it is `2 * breakPoint > chunkSize`. -/

/-- One iteration of the `chunkText` loop body: returns the chunk value that
is pushed (before `trim`) and the new cursor. -/
def chunkStep (S O : Nat) (text : Str) (start : Int) : Str × Int :=
  let len : Int := text.length
  let e : Int := min (start + S) len
  let chunk := jsSlice text start e
  let chunk2 :=
    if e < len then
      let bp := max (max (jsLastIndexOf '.' chunk) (jsLastIndexOf '?' chunk))
                    (max (jsLastIndexOf '!' chunk) (jsLastIndexOf '\n' chunk))
      if 2 * bp > (S : Int) then jsSlice chunk 0 (bp + 1) else chunk
    else chunk
  (chunk2, start + chunk2.length - O)

/-- The `chunkText` while-loop with explicit fuel; `none` means the loop has
not finished within `fuel` iterations. -/
def chunkTextAux (S O : Nat) (text : Str) : Nat → Int → List Str → Option (List Str)
  | 0, _, _ => none
  | fuel + 1, start, acc =>
    if start < (text.length : Int) then
      let p := chunkStep S O text start
      chunkTextAux S O text fuel p.2 (acc ++ [jsTrim p.1])
    else
      some (acc.filter (fun c => c.length > 0))

/-- `chunkText(text, S, O)`, fuelled. -/
def chunkTextFuel (fuel : Nat) (text : Str) (S O : Nat) : Option (List Str) :=
  chunkTextAux S O text fuel 0 []

/-- The cursor value after `n` iterations of the `chunkText` loop. -/
def cursorSeq (text : Str) (S O : Nat) : Nat → Int
  | 0 => 0
  | n + 1 => (chunkStep S O text (cursorSeq text S O n)).2

/-- Specification-side helper: the rightmost position of a character
satisfying `p`, if any. -/
def rightmostIdxP (p : Char → Bool) : Str → Option Nat
  | [] => none
  | c :: t =>
    match rightmostIdxP p t with
    | some j => some (j + 1)
    | none => if p c then some 0 else none

/-- Sentence-terminal characters and newline, as in the chunker heuristic. -/
def isBreakChar (c : Char) : Bool :=
  c = '.' ∨ c = '?' ∨ c = '!' ∨ c = '\n'

/-- Read an optional index as the JavaScript `-1`-sentinel convention. -/
def optIdx : Option Nat → Int
  | none => -1
  | some j => j

/-! ## Citation processing

The two `processCitations` variants (`components/elements/response.tsx` and
the duplicate in `src/unnamed/part_005`) and `processTextWithCitations`
(`components/citation-processor.tsx`) all scan with the regex
`/\[Source:\s*([^\]]+)\]/g` (`response.tsx` additionally with
`/\[Knowledge Graph:\s*([^\]]+)\]/g`).  The matchers below implement those
regexes: literal prefix, then greedy `\s*` with backtracking, then a greedy
nonempty run of non-`]` characters, then `]`. -/

/-- `litMatch pat s`: `pat` is a prefix of `s` (literal regex part). -/
def litMatch : Str → Str → Bool
  | [], _ => true
  | _ :: _, [] => false
  | p :: ps, c :: cs => if p = c then litMatch ps cs else false

/-- First character of `s` is `c`. -/
def headIs (c : Char) : Str → Bool
  | [] => false
  | x :: _ => x = c

/-- Length of the maximal leading whitespace run (the greedy `\s*`). -/
def wsRunLen (s : Str) : Nat := (s.takeWhile jsWs).length

/-- `([^\]]+)\]` after `\s*`, with the regex backtracking over the
whitespace: `k` is the number of whitespace characters currently consumed
by `\s*`, tried greedily from the maximal run downwards.  Returns the
captured label and the number of characters consumed. -/
def mCapAt (s : Str) (k : Nat) : Option (Str × Nat) :=
  if ((s.drop k).takeWhile (fun c => ¬ c = ']')).length ≠ 0 ∧
      headIs ']' ((s.drop k).drop ((s.drop k).takeWhile (fun c => ¬ c = ']')).length) then
    some ((s.drop k).takeWhile (fun c => ¬ c = ']'),
          k + ((s.drop k).takeWhile (fun c => ¬ c = ']')).length + 1)
  else none

/-- Backtracking loop for `mCapAt`, trying `k` greedily downwards. -/
def mCapTry (s : Str) : Nat → Option (Str × Nat)
  | 0 => mCapAt s 0
  | k + 1 =>
    match mCapAt s (k + 1) with
    | some p => some p
    | none => mCapTry s k

/-- Match `lit ++ \s*([^\]]+)\]` at the start of `s`; returns the captured
label and the total match length. -/
def mCap (lit : Str) (s : Str) : Option (Str × Nat) :=
  if litMatch lit s then
    (mCapTry (s.drop lit.length) (wsRunLen (s.drop lit.length))).map
      (fun p => (p.1, lit.length + p.2))
  else none

/-- Match `lit ++ \s* ++ label ++ ]` (the replacement-phase regex built from
an escaped label) at the start of `s`; returns the match length. -/
def mPatAt (label : Str) (s : Str) (k : Nat) : Option Nat :=
  if litMatch (label ++ [']']) (s.drop k) then some (k + label.length + 1) else none

/-- Backtracking loop for `mPatAt`, trying `k` greedily downwards. -/
def mPatTry (label : Str) (s : Str) : Nat → Option Nat
  | 0 => mPatAt label s 0
  | k + 1 =>
    match mPatAt label s (k + 1) with
    | some p => some p
    | none => mPatTry label s k

/-- The replacement-phase matcher for one label. -/
def mPat (lit label : Str) (s : Str) : Option Nat :=
  if litMatch lit s then
    (mPatTry label (s.drop lit.length) (wsRunLen (s.drop lit.length))).map
      (fun k => lit.length + k)
  else none

/-- The literal `[Source:` of the source-citation regex. -/
def srcLit : Str := "[Source:".data

/-- The literal `[Knowledge Graph:` of the knowledge-graph regex. -/
def kgLit : Str := "[Knowledge Graph:".data

/-- The `regex.exec` scan loop collecting captured labels left to right.
`skip` counts characters of an already-consumed match still to pass over
(the JS `lastIndex` mechanics). -/
def scanSk (m : Str → Option (Str × Nat)) : Nat → Str → List Str
  | _, [] => []
  | skip + 1, _ :: t => scanSk m skip t
  | 0, c :: t =>
    match m (c :: t) with
    | some (lab, k) => lab :: scanSk m (k - 1) t
    | none => scanSk m 0 t

/-- All labels captured by matcher `m` over a text, in occurrence order. -/
def scanWith (m : Str → Option (Str × Nat)) (s : Str) : List Str := scanSk m 0 s

/-- `String.replace(pattern, rep)` with a global regex: non-overlapping
left-to-right replacement. -/
def repSk (m : Str → Option Nat) (rep : Str) : Nat → Str → Str
  | _, [] => []
  | skip + 1, _ :: t => repSk m rep skip t
  | 0, c :: t =>
    match m (c :: t) with
    | some k => rep ++ repSk m rep (k - 1) t
    | none => c :: repSk m rep 0 t

/-- Replace every match of `m` by `rep`. -/
def replaceWith (m : Str → Option Nat) (rep : Str) (s : Str) : Str := repSk m rep 0 s

/-- Decimal digit character. -/
def digitChar (n : Nat) : Char := Char.ofNat (48 + n % 10)

/-- Decimal rendering of a natural number (the template `${index}`),
with fuel to keep the recursion structural. -/
def natStrAux : Nat → Nat → Str
  | 0, n => [digitChar n]
  | fuel + 1, n =>
    if n < 10 then [digitChar n]
    else natStrAux fuel (n / 10) ++ [digitChar (n % 10)]

/-- Decimal rendering of `n`. -/
def natStr (n : Nat) : Str := natStrAux n n

/-- The replacement text `[${index}]`. -/
def numRef (n : Nat) : Str := '[' :: (natStr n ++ [']'])

/-- First-occurrence deduplication step: the `citationMap`/`sources` update. -/
def fOccStep (acc : List Str) (lab : Str) : List Str :=
  if lab ∈ acc then acc else acc ++ [lab]

/-- Fold of `fOccStep` over an occurrence stream, starting from `acc`. -/
def fOccFrom (acc : List Str) : List Str → List Str
  | [] => acc
  | l :: t => fOccFrom (fOccStep acc l) t

/-- Ordered list of distinct labels, in first-occurrence order. -/
def firstOccur (l : List Str) : List Str := fOccFrom [] l

/-- 0-based index of the first occurrence of `x`, if present. -/
def idxOf? {α : Type} [DecidableEq α] : List α → α → Option Nat
  | [], _ => none
  | x :: t, y => if x = y then some 0 else (idxOf? t y).map (· + 1)

/-- Pair every element with an index counting up from `n`. -/
def withIdxFrom {α : Type} (n : Nat) : List α → List (α × Nat)
  | [] => []
  | x :: t => (x, n) :: withIdxFrom (n + 1) t

namespace Part005

/-- The per-label replacement pass of `processCitations` (`citationMap.forEach`,
in insertion order): each pair is a label with its citation index. -/
def applyReps (t : Str) (pairs : List (Str × Nat)) : Str :=
  pairs.foldl (fun txt p => replaceWith (mPat srcLit p.1) (numRef p.2) txt) t

/-- `processCitations` of `src/unnamed/part_005`: collect labels of
`[Source: ...]` markers, dedupe in first-occurrence order, then replace all
markers label by label (early return when no marker was found). -/
def processCitations (t : Str) : Str × List Str :=
  if firstOccur (scanWith (mCap srcLit) t) = [] then (t, [])
  else (applyReps t (withIdxFrom 1 (firstOccur (scanWith (mCap srcLit) t))),
        firstOccur (scanWith (mCap srcLit) t))

end Part005

namespace Response

/-- The per-label replacement pass of `processCitations` in
`components/elements/response.tsx`: for each label, first the source regex,
then the knowledge-graph regex. -/
def applyReps (t : Str) (pairs : List (Str × Nat)) : Str :=
  pairs.foldl
    (fun txt p =>
      replaceWith (mPat kgLit p.1) (numRef p.2)
        (replaceWith (mPat srcLit p.1) (numRef p.2) txt)) t

/-- `processCitations` of `components/elements/response.tsx`: source labels
first, then knowledge-graph labels, one shared map. -/
def processCitations (t : Str) : Str × List Str :=
  if firstOccur (scanWith (mCap srcLit) t ++ scanWith (mCap kgLit) t) = [] then (t, [])
  else (applyReps t
          (withIdxFrom 1 (firstOccur (scanWith (mCap srcLit) t ++ scanWith (mCap kgLit) t))),
        firstOccur (scanWith (mCap srcLit) t ++ scanWith (mCap kgLit) t))

end Response

namespace CitProc

/-- The single pass of `processTextWithCitations`
(`components/citation-processor.tsx`): each marker occurrence is assigned
`sources.indexOf(label) + 1`, pushing unseen labels.  Returns the
occurrence list with assigned citation indices and the final `sources`.
`skip` plays the role of the regex `lastIndex`. -/
def occSk : Nat → Str → List Str → List (Str × Nat) × List Str
  | _, [], acc => ([], acc)
  | skip + 1, _ :: t, acc => occSk skip t acc
  | 0, c :: t, acc =>
    match mCap srcLit (c :: t) with
    | some (lab, k) =>
      let p :=
        match idxOf? acc lab with
        | some j => (j + 1, acc)
        | none => (acc.length + 1, acc ++ [lab])
      let r := occSk (k - 1) t p.2
      ((lab, p.1) :: r.1, r.2)
    | none => occSk 0 t acc

/-- Occurrence/citation-index assignment of `processTextWithCitations`. -/
def occAssign (t : Str) : List (Str × Nat) := (occSk 0 t []).1

/-- The `sources` list returned by `processTextWithCitations`. -/
def sourcesOf (t : Str) : List Str := (occSk 0 t []).2

end CitProc

/-- 1-based position of `lab` in `l` (0 if absent); the citation number the
map-based implementations associate with a label. -/
def pos1 (l : List Str) (lab : Str) : Nat := (idxOf? l lab).getD 0 + 1

/-- The per-occurrence numbering rule of `processTextWithCitations`, as a
function of the occurrence stream: a seen label gets its index in the
`sources` accumulator, an unseen one is appended and numbered
`sources.length + 1`. -/
def numbered (acc : List Str) : List Str → List (Str × Nat)
  | [] => []
  | l :: t =>
    (l, match idxOf? acc l with | some j => j + 1 | none => acc.length + 1) ::
      numbered (fOccStep acc l) t

/-! ### Specification-side citation processor for claim C2

Modelled from the claim's words, for comparison with the implementation:
markers are the literal `[Source: ` (one space) followed by a nonempty run
of non-`]` characters (the label, taken verbatim) and `]`; one left-to-right
pass replaces each marker with the 1-based first-occurrence number of its
exact label and collects the distinct labels. -/

/-- The claim's marker form: literal `[Source: `, verbatim label, `]`. -/
def claimLit : Str := "[Source: ".data

/-- Match the claim's marker form at the start of `s`. -/
def mClaim (s : Str) : Option (Str × Nat) :=
  if litMatch claimLit s then
    let r := (s.drop claimLit.length).takeWhile (fun c => ¬ c = ']')
    if r.length ≠ 0 ∧ headIs ']' ((s.drop claimLit.length).drop r.length) then
      some (r, claimLit.length + r.length + 1)
    else none
  else none

/-- Single left-to-right rewriting pass over the claim's markers, assigning
first-occurrence numbers. -/
def rewSk : Nat → Str → List Str → Str × List Str
  | _, [], acc => ([], acc)
  | skip + 1, _ :: t, acc => rewSk skip t acc
  | 0, c :: t, acc =>
    match mClaim (c :: t) with
    | some (lab, k) =>
      let p :=
        match idxOf? acc lab with
        | some j => (j + 1, acc)
        | none => (acc.length + 1, acc ++ [lab])
      let r := rewSk (k - 1) t p.2
      (numRef p.1 ++ r.1, r.2)
    | none =>
      let r := rewSk 0 t acc
      (c :: r.1, r.2)

/-- The citation contract exactly as claim C2 words it. -/
def claimCitations (t : Str) : Str × List Str := rewSk 0 t []

/-! ## Document ingestion (`processDocumentForRAG` and its `cleanText`) -/

/-- The character filter of `cleanText`: keep `code >= 32 || code === 9 ||
code === 10 || code === 13`.  (The preceding `.replace(/\0/g, '')` is
subsumed: NUL has code 0.) -/
def keepChar (c : Char) : Bool :=
  32 ≤ c.toNat ∨ c.toNat = 9 ∨ c.toNat = 10 ∨ c.toNat = 13

/-- Split a list into consecutive slices of `n` elements (the
`for (let i = 0; i < text.length; i += chunkSize)` slicing).  The `n = 0`
case cannot arise at the call sites (10000 and 10). -/
def chunksOf {α : Type} (n : Nat) (l : List α) : List (List α) :=
  if n = 0 then []
  else if l.length ≤ n then (if l.length = 0 then [] else [l])
  else l.take n :: chunksOf n (l.drop n)
termination_by l.length
decreasing_by
  simp only [List.length_drop]
  omega

/-- `chunks.join(' ')`: join with a single space between consecutive slices. -/
def joinSp : List Str → Str
  | [] => []
  | [x] => x
  | x :: y :: t => x ++ ' ' :: joinSp (y :: t)

/-- The per-10000-character-slice pipeline of `cleanText`: filter the
kept characters, collapse whitespace runs, trim. -/
def cleanSlice (sl : Str) : Str := jsTrim (collapseWs (sl.filter keepChar))

/-- `cleanText` as defined inside `processDocumentForRAG`: process the text
in 10000-character slices and join the cleaned slices with spaces. -/
def cleanText (t : Str) : Str := joinSp ((chunksOf 10000 t).map cleanSlice)

/-- Specification-side sanitizer, modelled from claim C5's words: null bytes
and all non-printable control characters removed (only space, tab, CR, LF
kept among control/whitespace characters), every whitespace run collapsed
to a single space, nothing else changed. -/
def claimKeep (c : Char) : Bool :=
  (32 ≤ c.toNat ∧ c.toNat ≠ 127) ∨ c.toNat = 9 ∨ c.toNat = 10 ∨ c.toNat = 13

/-- The sanitization exactly as claim C5 words it. -/
def claimClean (t : Str) : Str := collapseWs (t.filter claimKeep)

/-- The per-chunk cleaning before `saveRagChunk`: remove NUL and
`[\x00-\x08\x0B\x0C\x0E-\x1F\x7F]`, then trim. -/
def keepChunkChar (c : Char) : Bool :=
  ¬ (c.toNat ≤ 8 ∨ c.toNat = 11 ∨ c.toNat = 12 ∨
     (14 ≤ c.toNat ∧ c.toNat ≤ 31) ∨ c.toNat = 127)

/-- Chunk-content sanitization in `processDocumentForRAG`. -/
def chunkClean (c : Str) : Str := jsTrim (c.filter keepChunkChar)

/-- Failures of the ingestion pipeline: embedding-service transport failure,
wrong embedding dimensionality, empty sanitized chunk content. -/
inductive PErr : Type
  | serviceError : PErr
  | invalidEmbedding : PErr
  | invalidChunk : PErr
deriving DecidableEq, Repr

/-- Outcome of one chunk's promise up to the point of persistence: generate
the embedding (a throw of `generateEmbedding` is the service error),
validate `embedding.length === 1536`, sanitize the content and reject it if
empty; on success the pair to persist. -/
def chunkOutcome (embed : Str → Except Unit (List Int)) (c : Str) :
    Except PErr (List Int × Str) :=
  match embed c with
  | .error _ => .error .serviceError
  | .ok v =>
    if v.length = 1536 then
      if chunkClean c = [] then .error .invalidChunk else .ok (v, chunkClean c)
    else .error .invalidEmbedding

/-- A persisted `RagChunk` row (`saveRagChunk` call). -/
structure SavedChunk : Type where
  content : Str
  embedding : List Int
  chunkIndex : Nat
deriving DecidableEq, Repr

/-- The rows persisted out of one batch: each chunk's promise runs to
completion independently of its siblings (a rejection of one promise does
not cancel the others), so exactly the chunks whose own checks pass are
saved, whatever else happens in the batch. -/
def batchSaved (embed : Str → Except Unit (List Int)) (batch : List (Str × Nat)) :
    List SavedChunk :=
  batch.filterMap (fun p =>
    match chunkOutcome embed p.1 with
    | .ok r => some ⟨r.2, r.1, p.2⟩
    | .error _ => none)

/-- The first failure inside a batch, if any (what `Promise.all` rejects with). -/
def batchErr (embed : Str → Except Unit (List Int)) (batch : List (Str × Nat)) :
    Option PErr :=
  batch.findSome? (fun p =>
    match chunkOutcome embed p.1 with
    | .ok _ => none
    | .error e => some e)

/-- A chunk whose own pipeline (embedding, validation, sanitization) fails. -/
def chunkFails (embed : Str → Except Unit (List Int)) (c : Str) : Bool :=
  match chunkOutcome embed c with
  | .error _ => true
  | .ok _ => false

/-- The batch loop of `processDocumentForRAG`: batches are awaited in order;
a failing `Promise.all` aborts the loop after its batch (later batches are
never started), but the failing batch's successful siblings are persisted. -/
def runBatches (embed : Str → Except Unit (List Int)) :
    List (List (Str × Nat)) → List SavedChunk × Option PErr
  | [] => ([], none)
  | b :: rest =>
    match batchErr embed b with
    | some e => (batchSaved embed b, some e)
    | none =>
      let r := runBatches embed rest
      (batchSaved embed b ++ r.1, r.2)

/-- A persisted `RagDocument` row (`saveRagDocument` call).  The opaque
metadata bag is not modelled. -/
structure DocRecord : Type where
  title : Str
  content : Str
  source : Option Str
  userId : Str
deriving DecidableEq, Repr

/-- Observable outcome of `processDocumentForRAG`: the document row written
first, the chunk rows written, and the error the call throws, if any. -/
structure ProcResult : Type where
  doc : DocRecord
  saved : List SavedChunk
  result : Option PErr
deriving DecidableEq, Repr

/-- `processDocumentForRAG`: clean title/content/source with `cleanText`,
persist the document, then embed and persist the pre-chunked passages in
batches of 10. -/
def processDocumentForRAG (embed : Str → Except Unit (List Int))
    (title content : Str) (chunks : List Str) (source : Option Str)
    (userId : Str) : ProcResult :=
  let doc : DocRecord :=
    ⟨cleanText title, cleanText content, source.map cleanText, userId⟩
  let r := runBatches embed (chunksOf 10 (withIdxFrom 0 chunks))
  ⟨doc, r.1, r.2⟩

/-- Specification-side description of which chunks belong to a batch that is
started: all batches up to and including the first failing one. -/
def processedChunks (embed : Str → Except Unit (List Int)) :
    List (List (Str × Nat)) → List (Str × Nat)
  | [] => []
  | b :: rest =>
    if (batchErr embed b).isSome then b else b ++ processedChunks embed rest

/-! ## The documents route (`app/(chat)/api/rag/documents/route.ts`),
JSON branch of `POST` -/

/-- Responses of the JSON upload branch that matter here. -/
inductive RouteRes : Type
  | badRequest : Str → RouteRes
  | okDoc : RouteRes
  | serverError : RouteRes
deriving DecidableEq

/-- The 400 message for a missing title or content. -/
def requiredMsg : Str := "Title and content are required".data

/-- The JSON branch of `POST /api/rag/documents`: guard `!title || !content`,
then `chunkText(content, 500, 100)`, then `processDocumentForRAG`.  The
result also carries the persistence trace (documents and chunks written);
`none` means `chunkText` did not finish within `fuel` iterations. -/
def postJson (fuel : Nat) (embed : Str → Except Unit (List Int))
    (title content : Str) (source : Option Str) (userId : Str) :
    Option (RouteRes × List DocRecord × List SavedChunk) :=
  if title = [] ∨ content = [] then some (.badRequest requiredMsg, [], [])
  else
    match chunkTextFuel fuel content 500 100 with
    | none => none
    | some chunks =>
      let pr := processDocumentForRAG embed title content chunks source userId
      match pr.result with
      | none => some (.okDoc, [pr.doc], pr.saved)
      | some _ => some (.serverError, [pr.doc], pr.saved)

/-! ## Similarity retrieval (`searchRelevantChunks`) -/

/-- A stored passage as retrieval sees it. -/
structure RagChunkRow : Type where
  content : Str
  userId : Str
deriving DecidableEq

/-- Insert into a list sorted by descending similarity. -/
def insertDesc (sim : RagChunkRow → ℚ) (x : RagChunkRow) :
    List RagChunkRow → List RagChunkRow
  | [] => [x]
  | y :: t => if sim x ≥ sim y then x :: y :: t else y :: insertDesc sim x t

/-- Sort by descending similarity. -/
def sortDesc (sim : RagChunkRow → ℚ) : List RagChunkRow → List RagChunkRow
  | [] => []
  | x :: t => insertDesc sim x (sortDesc sim t)

/-- Modelled from the spec: `searchSimilarChunks` of `lib/db/queries` is not
part of the sources; §4.4/§6 of the specification describe it as a
similarity search restricted to the owner when supplied, ranked by
similarity descending, dropping results below the threshold and truncating
to the limit.  `sim` gives each stored row's similarity to the query. -/
def searchSimilarChunks (sim : RagChunkRow → ℚ) (store : List RagChunkRow)
    (limit : Nat) (threshold : ℚ) (userId : Option Str) : List RagChunkRow :=
  (sortDesc sim (store.filter (fun r =>
    (match userId with | none => true | some u => decide (r.userId = u)) &&
    decide (threshold ≤ sim r)))).take limit

/-- `searchRelevantChunks({query, userId, limit = 5, threshold = 0.3})`:
embed the query (propagating an embedding-service throw), then delegate.
Omitted optional arguments are `none`; the JS defaults fill them in. -/
def searchRelevantChunks (sim : RagChunkRow → ℚ) (store : List RagChunkRow)
    (embedRes : Except Unit (List Int)) (userId : Option Str)
    (limit : Option Nat) (threshold : Option ℚ) :
    Except Unit (List RagChunkRow) :=
  match embedRes with
  | .error e => .error e
  | .ok _ =>
    .ok (searchSimilarChunks sim store (limit.getD 5) (threshold.getD (3 / 10)) userId)

/-! ## Structured texts for the citation-replacement analysis

A text built from marker-free spans, source markers and already-numbered
references.  The replacement pass of `processCitations` is characterised on
texts whose spans contain no `[` and whose labels contain neither `[` nor
`]` (markers do not nest or overlap). -/

/-- A segment of a structured text. -/
inductive Seg : Type
  | plain : Str → Seg
  | marker : Str → Str → Seg
  | numref : Nat → Seg
deriving DecidableEq

/-- The text a segment stands for; a `marker ws lab` is
`[Source:` ++ ws ++ lab ++ `]`. -/
def Seg.render : Seg → Str
  | .plain s => s
  | .marker ws lab => srcLit ++ ws ++ lab ++ [']']
  | .numref n => numRef n

/-- The text of a structured text. -/
def renderAll (ss : List Seg) : Str := (ss.map Seg.render).flatten

/-- A well-formed label: nonempty, free of brackets, not starting with
whitespace. -/
def goodLab (lab : Str) : Prop :=
  lab ≠ [] ∧ (∀ c ∈ lab, ¬ c = '[' ∧ ¬ c = ']') ∧ ¬ jsWs lab.headI

/-- Well-formedness of a segment. -/
def Seg.good : Seg → Prop
  | .plain s => '[' ∉ s
  | .marker ws lab => (∀ c ∈ ws, jsWs c) ∧ goodLab lab
  | .numref _ => True

/-- The marker labels of a structured text, in order. -/
def labelsOf : List Seg → List Str
  | [] => []
  | .marker _ lab :: t => lab :: labelsOf t
  | _ :: t => labelsOf t

/-- Effect of one replacement pass for label `L` with citation index `n`. -/
def substSeg (L : Str) (n : Nat) : Seg → Seg
  | .marker ws lab => if lab = L then .numref n else .marker ws lab
  | s => s

/-- Effect of the whole replacement phase: every marker becomes the numeric
reference of its label. -/
def numberSeg (sources : List Str) : Seg → Seg
  | .marker ws lab =>
    match idxOf? sources lab with
    | some j => .numref (j + 1)
    | none => .marker ws lab
  | s => s

/-- Concrete passage used in the batch counterexample (kept as a definition
so that rewriting stays syntactic). -/
def goodStr : Str := "good".data

/-- Concrete passage whose embedding comes back with the wrong dimension. -/
def badStr : Str := "bad".data

/-- A test embedder: `goodStr` gets a 1536-vector, everything else a
3-vector. -/
def embedTest : Str → Except Unit (List Int) := fun c =>
  if c = goodStr then Except.ok (List.replicate 1536 (0 : Int)) else Except.ok [0, 0, 0]

/-- The structured form of the specification's citation-numbering example
`"[Source: A] and [Source: B] then [Source: A]"`. -/
def exampleSegs : List Seg :=
  [Seg.marker [' '] "A".data, Seg.plain " and ".data, Seg.marker [' '] "B".data,
   Seg.plain " then ".data, Seg.marker [' '] "A".data]

/-! # Theorems -/

/-! ## Basic facts about the JavaScript string primitives -/

theorem jsSlice_length_le (s : Str) (a b : Int) : (jsSlice s a b).length ≤ s.length := by
  simp only [jsSlice, List.length_take, List.length_drop]
  omega

theorem jsClamp_of_nonneg (n a : Int) (h0 : 0 ≤ a) (ha : a ≤ n) :
    jsClamp n a = a.toNat := by
  unfold jsClamp
  rw [if_neg (by omega)]
  omega

theorem jsSlice_length_le_of_nonneg (s : Str) (a b : Int) (h0 : 0 ≤ a)
    (ha : a ≤ (s.length : Int)) :
    ((jsSlice s a b).length : Int) ≤ (s.length : Int) - a := by
  simp only [jsSlice, List.length_take, List.length_drop]
  rw [jsClamp_of_nonneg _ _ h0 ha]
  omega

theorem dropWhile_head_not (p : Char → Bool) (l : Str) (c : Char)
    (h : (l.dropWhile p).head? = some c) : p c = false := by
  induction l with
  | nil => simp [List.dropWhile] at h
  | cons x t ih =>
    by_cases hx : p x
    · rw [List.dropWhile_cons_of_pos hx] at h
      exact ih h
    · rw [List.dropWhile_cons_of_neg hx] at h
      simp at h
      subst h
      simpa using hx

theorem dropWhile_eq_self_of_head (p : Char → Bool) (l : Str)
    (h : ∀ c, l.head? = some c → p c = false) : l.dropWhile p = l := by
  cases l with
  | nil => rfl
  | cons x t =>
    have hx : p x = false := h x rfl
    exact List.dropWhile_cons_of_neg (by simp [hx])

theorem getLast?_dropWhile (p : Char → Bool) (l : Str)
    (h : l.dropWhile p ≠ []) : (l.dropWhile p).getLast? = l.getLast? := by
  induction l with
  | nil => simp at h
  | cons x t ih =>
    by_cases hx : p x
    · rw [List.dropWhile_cons_of_pos hx] at h ⊢
      have ht : t ≠ [] := by
        intro he
        subst he
        simp [List.dropWhile] at h
      rw [ih h]
      cases t with
      | nil => exact absurd rfl ht
      | cons y u => rw [List.getLast?_cons_cons]
    · rw [List.dropWhile_cons_of_neg hx]

theorem jsTrim_idem (s : Str) : jsTrim (jsTrim s) = jsTrim s := by
  unfold jsTrim
  set u := s.dropWhile jsWs with hu
  set x := u.reverse.dropWhile jsWs with hx
  have hstep1 : x.reverse.dropWhile jsWs = x.reverse := by
    apply dropWhile_eq_self_of_head
    intro c hc
    rw [List.head?_reverse] at hc
    have hxne : x ≠ [] := by
      intro he
      rw [he] at hc
      simp at hc
    rw [hx, getLast?_dropWhile _ _ (hx ▸ hxne), List.getLast?_reverse] at hc
    exact dropWhile_head_not jsWs s c (hu ▸ hc)
  rw [hstep1, List.reverse_reverse]
  have hstep2 : x.dropWhile jsWs = x := by
    apply dropWhile_eq_self_of_head
    intro c hc
    exact dropWhile_head_not jsWs u.reverse c (hx ▸ hc)
  rw [hstep2]

/-! ## Claim C1: termination and forward progress of `chunkText` -/

theorem chunkStep_snd_lt (S O : Nat) (text : Str) (start : Int)
    (hO : 1 ≤ O) (hs : start < (text.length : Int)) :
    (chunkStep S O text start).2 < (text.length : Int) := by
  unfold chunkStep
  simp only
  set e : Int := min (start + (S : Int)) (text.length : Int) with he
  set chunk := jsSlice text start e with hchunk
  set bp := max (max (jsLastIndexOf '.' chunk) (jsLastIndexOf '?' chunk))
                (max (jsLastIndexOf '!' chunk) (jsLastIndexOf '\n' chunk)) with hbp
  have hlen : ∀ c2 : Str, c2.length ≤ chunk.length →
      start + (c2.length : Int) - (O : Int) < (text.length : Int) := by
    intro c2 hc2
    by_cases h0 : 0 ≤ start
    · have := jsSlice_length_le_of_nonneg text start e h0 (le_of_lt hs)
      rw [← hchunk] at this
      have : (c2.length : Int) ≤ (text.length : Int) - start := by
        calc (c2.length : Int) ≤ (chunk.length : Int) := by exact_mod_cast hc2
        _ ≤ (text.length : Int) - start := this
      omega
    · have h1 : chunk.length ≤ text.length := hchunk ▸ jsSlice_length_le text start e
      have : (c2.length : Int) ≤ (text.length : Int) := by
        have := le_trans hc2 h1
        exact_mod_cast this
      omega
  by_cases hcut : e < (text.length : Int)
  · rw [if_pos hcut]
    by_cases hb : 2 * bp > (S : Int)
    · rw [if_pos hb]
      exact hlen _ (jsSlice_length_le chunk 0 (bp + 1))
    · rw [if_neg hb]
      exact hlen chunk le_rfl
  · rw [if_neg hcut]
    exact hlen chunk le_rfl

theorem cursorSeq_lt (text : Str) (S O : Nat) (h1 : 1 ≤ text.length)
    (hO : 1 ≤ O) : ∀ n, cursorSeq text S O n < (text.length : Int) := by
  intro n
  induction n with
  | zero =>
    simp only [cursorSeq]
    exact_mod_cast h1
  | succ n ih =>
    exact chunkStep_snd_lt S O text _ hO ih

theorem chunkTextAux_none (S O : Nat) (text : Str) (hO : 1 ≤ O) :
    ∀ (fuel : Nat) (start : Int) (acc : List Str),
      start < (text.length : Int) → chunkTextAux S O text fuel start acc = none := by
  intro fuel
  induction fuel with
  | zero => intro start acc _; rfl
  | succ fuel ih =>
    intro start acc hs
    unfold chunkTextAux
    rw [if_pos hs]
    exact ih _ _ (chunkStep_snd_lt S O text start hO hs)

/-- Claim C1: the claim states that for every non-empty text, every chunk
size `S > 0` and every overlap `0 ≤ O < S` (in particular `S = 500`,
`O = 100`), `chunkText` terminates with a minimum forward progress of 1 per
iteration.  The code has no forward-progress guard: the cursor update is
`start += chunk.length - overlap`, and for every non-empty text and every
overlap `O ≥ 1` the cursor stays below the text length forever — the
`while (start < text.length)` loop never exits, so `chunkText` never
terminates (the fuelled loop returns `none` for every fuel). -/
theorem chunkText_never_terminates (text : Str) (S O : Nat)
    (h1 : 1 ≤ text.length) (hO : 1 ≤ O) :
    (∀ n, cursorSeq text S O n < (text.length : Int)) ∧
    (∀ fuel, chunkTextFuel fuel text S O = none) := by
  refine ⟨cursorSeq_lt text S O h1 hO, fun fuel => ?_⟩
  unfold chunkTextFuel
  exact chunkTextAux_none S O text hO fuel 0 [] (by exact_mod_cast h1)

/-- Witness for C1 at the failing input of the text-upload path:
`chunkText("hello", 500, 100)` loops forever. -/
theorem chunkText_never_terminates_witness :
    1 ≤ "hello".data.length ∧ 1 ≤ 100 ∧
    cursorSeq "hello".data 500 100 3 < ("hello".data.length : Int) ∧
    chunkTextFuel 9 "hello".data 500 100 = none :=
  ⟨by decide, by decide,
   (chunkText_never_terminates "hello".data 500 100 (by decide) (by decide)).1 3,
   (chunkText_never_terminates "hello".data 500 100 (by decide) (by decide)).2 9⟩

/-! ## Claim C6: the sentence-boundary truncation heuristic -/

theorem optIdx_eq_coe (o : Option Nat) (m : Nat) : optIdx o = (m : Int) ↔ o = some m := by
  cases o with
  | none =>
    simp only [optIdx]
    constructor
    · intro h; omega
    · intro h; cases h
  | some j =>
    simp only [optIdx]
    constructor
    · intro h
      have : j = m := by exact_mod_cast h
      rw [this]
    · intro h
      cases h
      rfl

theorem jsLastIndexOf_eq (c : Char) (s : Str) :
    jsLastIndexOf c s = optIdx (rightmostIdxP (fun x => x = c) s) := by
  induction s with
  | nil => rfl
  | cons x t ih =>
    simp only [jsLastIndexOf, rightmostIdxP]
    rw [ih]
    cases h : rightmostIdxP (fun x => x = c) t with
    | some j =>
      simp only [optIdx]
      rw [if_pos (by positivity)]
      push_cast
      ring
    | none =>
      simp only [optIdx]
      rw [if_neg (by omega)]
      by_cases hx : x = c <;> simp [optIdx, hx]

theorem rightmost_union (p q : Char → Bool) (s : Str) :
    optIdx (rightmostIdxP (fun c => p c || q c) s) =
      max (optIdx (rightmostIdxP p s)) (optIdx (rightmostIdxP q s)) := by
  induction s with
  | nil => rfl
  | cons x t ih =>
    simp only [rightmostIdxP]
    cases hp : rightmostIdxP p t with
    | some j =>
      cases hq : rightmostIdxP q t with
      | some k =>
        rw [hp, hq] at ih
        have hm : rightmostIdxP (fun c => p c || q c) t = some (max j k) := by
          rw [← optIdx_eq_coe, ih]
          simp only [optIdx]
          push_cast
          omega
        rw [hm]
        simp only [optIdx]
        push_cast
        omega
      | none =>
        rw [hp, hq] at ih
        have hm : rightmostIdxP (fun c => p c || q c) t = some j := by
          rw [← optIdx_eq_coe, ih]
          simp only [optIdx]
          omega
        rw [hm]
        simp only [optIdx]
        by_cases hqx : q x = true
        · rw [if_pos hqx]
          simp only [optIdx]
          omega
        · rw [if_neg hqx]
          simp only [optIdx]
          omega
    | none =>
      cases hq : rightmostIdxP q t with
      | some k =>
        rw [hp, hq] at ih
        have hm : rightmostIdxP (fun c => p c || q c) t = some k := by
          rw [← optIdx_eq_coe, ih]
          simp only [optIdx]
          omega
        rw [hm]
        simp only [optIdx]
        by_cases hpx : p x = true
        · rw [if_pos hpx]
          simp only [optIdx]
          omega
        · rw [if_neg hpx]
          simp only [optIdx]
          omega
      | none =>
        rw [hp, hq] at ih
        have hm : rightmostIdxP (fun c => p c || q c) t = none := by
          cases hu : rightmostIdxP (fun c => p c || q c) t with
          | none => rfl
          | some m =>
            rw [hu] at ih
            simp only [optIdx] at ih
            omega
        rw [hm]
        by_cases hpx : p x = true <;> by_cases hqx : q x = true <;>
          simp [hpx, hqx, optIdx]

theorem bp_eq_rightmost (w : Str) :
    max (max (jsLastIndexOf '.' w) (jsLastIndexOf '?' w))
        (max (jsLastIndexOf '!' w) (jsLastIndexOf '\n' w)) =
      optIdx (rightmostIdxP isBreakChar w) := by
  rw [jsLastIndexOf_eq, jsLastIndexOf_eq, jsLastIndexOf_eq, jsLastIndexOf_eq,
      ← rightmost_union, ← rightmost_union, ← rightmost_union]
  congr 1
  apply congrFun
  apply congrArg
  funext c
  simp only [isBreakChar]
  by_cases h1 : c = '.' <;> by_cases h2 : c = '?' <;> by_cases h3 : c = '!' <;>
    by_cases h4 : c = '\n' <;> simp [h1, h2, h3, h4]

theorem jsSlice_zero_coe (s : Str) (m : Nat) : jsSlice s 0 (m : Int) = s.take m := by
  simp only [jsSlice, jsClamp]
  rw [if_neg (by omega), if_neg (by omega)]
  have h0 : (min (0 : Int) (s.length : Int)).toNat = 0 := by omega
  rw [h0, List.drop_zero, Nat.sub_zero]
  rcases le_or_lt m s.length with h | h
  · have : (min (m : Int) (s.length : Int)).toNat = m := by omega
    rw [this]
  · have : (min (m : Int) (s.length : Int)).toNat = s.length := by omega
    rw [this, List.take_length, List.take_of_length_le (by omega)]

/-- Claim C6: for a chunking step whose window does not reach end-of-text,
with `b` the rightmost position in the window holding `.`, `?`, `!` or a
newline: if `b > S * 0.5` (over the integers, `2 * b > S`) the emitted chunk
is the window truncated at `b` inclusive, and otherwise — `b` at or before
the midpoint, or no break character at all — the full window is emitted. -/
theorem chunkStep_sentence_boundary (S O : Nat) (text : Str) (start : Int)
    (he : min (start + (S : Int)) (text.length : Int) < (text.length : Int)) :
    (chunkStep S O text start).1 =
      (match rightmostIdxP isBreakChar
          (jsSlice text start (min (start + (S : Int)) (text.length : Int))) with
       | some b =>
         if 2 * (b : Int) > (S : Int) then
           (jsSlice text start (min (start + (S : Int)) (text.length : Int))).take (b + 1)
         else jsSlice text start (min (start + (S : Int)) (text.length : Int))
       | none => jsSlice text start (min (start + (S : Int)) (text.length : Int))) := by
  unfold chunkStep
  simp only
  rw [if_pos he, bp_eq_rightmost]
  cases h : rightmostIdxP isBreakChar
      (jsSlice text start (min (start + (S : Int)) (text.length : Int))) with
  | none =>
    simp only [optIdx]
    rw [if_neg (by omega)]
  | some b =>
    simp only [optIdx]
    by_cases hb : 2 * (b : Int) > (S : Int)
    · rw [if_pos hb, if_pos hb]
      have : ((b : Int) + 1) = ((b + 1 : Nat) : Int) := by push_cast; ring
      rw [this, jsSlice_zero_coe]
    · rw [if_neg hb, if_neg hb]

/-- Witness for C6: text `"abc.efgh"`, `S = 5`, `O = 1`, cursor 0: the
window is `"abc.e"`, the rightmost break is at 3, `2*3 > 5`, so the chunk is
`"abc."`. -/
theorem chunkStep_sentence_boundary_witness :
    min ((0 : Int) + (5 : Nat)) ("abc.efgh".data.length : Int) <
      ("abc.efgh".data.length : Int) ∧
    (chunkStep 5 1 "abc.efgh".data 0).1 =
      (match rightmostIdxP isBreakChar
          (jsSlice "abc.efgh".data 0 (min ((0 : Int) + (5 : Nat)) ("abc.efgh".data.length : Int))) with
       | some b =>
         if 2 * (b : Int) > ((5 : Nat) : Int) then
           (jsSlice "abc.efgh".data 0 (min ((0 : Int) + (5 : Nat)) ("abc.efgh".data.length : Int))).take (b + 1)
         else jsSlice "abc.efgh".data 0 (min ((0 : Int) + (5 : Nat)) ("abc.efgh".data.length : Int))
       | none => jsSlice "abc.efgh".data 0 (min ((0 : Int) + (5 : Nat)) ("abc.efgh".data.length : Int))) :=
  ⟨by decide, chunkStep_sentence_boundary 5 1 "abc.efgh".data 0 (by decide)⟩

/-! ## Claim C9: emitted passages are non-empty and trimmed -/

theorem chunkTextAux_mem (S O : Nat) (text : Str) :
    ∀ (fuel : Nat) (start : Int) (acc : List Str) (res : List Str),
      (∀ a ∈ acc, jsTrim a = a) →
      chunkTextAux S O text fuel start acc = some res →
      ∀ c ∈ res, c ≠ [] ∧ jsTrim c = c := by
  intro fuel
  induction fuel with
  | zero => intro start acc res _ h; cases h
  | succ fuel ih =>
    intro start acc res hacc h
    unfold chunkTextAux at h
    by_cases hs : start < (text.length : Int)
    · rw [if_pos hs] at h
      refine ih _ _ _ ?_ h
      intro a ha
      rcases List.mem_append.mp ha with ha | ha
      · exact hacc a ha
      · rcases List.mem_singleton.mp ha with rfl
        exact jsTrim_idem _
    · rw [if_neg hs] at h
      have hres : res = acc.filter (fun c => c.length > 0) := by
        injection h with h
        exact h.symm
      subst hres
      intro c hc
      have := List.mem_filter.mp hc
      refine ⟨?_, hacc c this.1⟩
      intro he
      rw [he] at this
      simp at this

/-- Claim C9: every passage returned by `chunkText` is non-empty and equals
its own trim; windows whose trimmed text is empty are dropped by the final
filter, never emitted. -/
theorem chunkText_trimmed_nonempty (fuel : Nat) (text : Str) (S O : Nat)
    (cs : List Str) (h : chunkTextFuel fuel text S O = some cs) :
    ∀ c ∈ cs, c ≠ [] ∧ jsTrim c = c :=
  chunkTextAux_mem S O text fuel 0 [] cs (by intro a ha; cases ha) h

/-- Witness for C9: `chunkText("ab", 500, 0)` terminates with `["ab"]`,
whose single passage is non-empty and trimmed. -/
theorem chunkText_trimmed_nonempty_witness :
    chunkTextFuel 5 "ab".data 500 0 = some ["ab".data] ∧
    ∀ c ∈ ["ab".data], c ≠ [] ∧ jsTrim c = c :=
  ⟨by decide, chunkText_trimmed_nonempty 5 "ab".data 500 0 ["ab".data] (by decide)⟩

/-! ## Claim C7: no-op behaviour on marker-free text -/

/-- Counterexample for C7 as stated: `"[Knowledge Graph: X]"` contains no
`[Source: <label>]` marker, yet `processCitations` of `response.tsx` does
not return it unchanged with an empty source list — it rewrites the
knowledge-graph marker and returns `("[1]", ["X"])`. -/
theorem processCitations_noop_counterexample :
    scanWith (mCap srcLit) "[Knowledge Graph: X]".data = [] ∧
    Response.processCitations "[Knowledge Graph: X]".data =
      ("[1]".data, ["X".data]) ∧
    ("[1]".data, (["X".data] : List Str)) ≠ ("[Knowledge Graph: X]".data, []) := by
  refine ⟨by decide, by decide, by decide⟩

/-- Claim C7, amended: for every text containing neither a
`[Source: <label>]` nor a `[Knowledge Graph: <label>]` marker — in
particular text already rewritten to `[n]` form, which matches neither
pattern — both `processCitations` variants return the original text
unchanged together with an empty source list; hence re-running the
processor on fully numbered output performs no further substitution. -/
theorem processCitations_noop_of_no_markers (t : Str)
    (hs : scanWith (mCap srcLit) t = [])
    (hk : scanWith (mCap kgLit) t = []) :
    Response.processCitations t = (t, []) ∧
    Part005.processCitations t = (t, []) := by
  constructor
  · unfold Response.processCitations
    rw [hs, hk]
    rfl
  · unfold Part005.processCitations
    rw [hs]
    rfl

/-- Witness for C7 (amended) on already-numbered text. -/
theorem processCitations_noop_witness :
    scanWith (mCap srcLit) "numbered [1] and [2] text".data = [] ∧
    scanWith (mCap kgLit) "numbered [1] and [2] text".data = [] ∧
    (Response.processCitations "numbered [1] and [2] text".data =
        ("numbered [1] and [2] text".data, []) ∧
     Part005.processCitations "numbered [1] and [2] text".data =
        ("numbered [1] and [2] text".data, [])) :=
  ⟨by decide, by decide,
   processCitations_noop_of_no_markers "numbered [1] and [2] text".data
     (by decide) (by decide)⟩

/-! ## Claim C10: agreement of the three citation implementations -/

theorem idxOf?_eq_none {α : Type} [DecidableEq α] (l : List α) (x : α) :
    idxOf? l x = none ↔ x ∉ l := by
  induction l with
  | nil => simp [idxOf?]
  | cons y t ih =>
    simp only [idxOf?, List.mem_cons]
    by_cases h : y = x
    · subst h
      simp
    · rw [if_neg h, Option.map_eq_none', ih]
      constructor
      · intro hx hc
        rcases hc with hc | hc
        · exact h hc.symm
        · exact hx hc
      · intro hc hx
        exact hc (Or.inr hx)

theorem idxOf?_append_left {α : Type} [DecidableEq α] (l₁ l₂ : List α) (x : α)
    (j : Nat) (h : idxOf? l₁ x = some j) : idxOf? (l₁ ++ l₂) x = some j := by
  induction l₁ generalizing j with
  | nil => cases h
  | cons y t ih =>
    rw [List.cons_append]
    simp only [idxOf?] at h ⊢
    by_cases hy : y = x
    · rw [if_pos hy] at h ⊢
      exact h
    · rw [if_neg hy] at h ⊢
      cases hi : idxOf? t x with
      | none => rw [hi] at h; cases h
      | some k =>
        rw [hi, Option.map_some'] at h
        rw [ih k hi, Option.map_some']
        exact h

theorem idxOf?_append_self {α : Type} [DecidableEq α] (l : List α) (x : α)
    (h : x ∉ l) : idxOf? (l ++ [x]) x = some l.length := by
  induction l with
  | nil => simp [idxOf?]
  | cons y t ih =>
    simp only [List.mem_cons, not_or] at h
    rw [List.cons_append]
    simp only [idxOf?]
    rw [if_neg (fun he => h.1 he.symm), ih h.2, Option.map_some', List.length_cons]

theorem fOcc_stable (rest : List Str) (acc : List Str) (lab : Str) (j : Nat)
    (h : idxOf? acc lab = some j) : idxOf? (fOccFrom acc rest) lab = some j := by
  induction rest generalizing acc with
  | nil => exact h
  | cons l t ih =>
    simp only [fOccFrom]
    apply ih
    unfold fOccStep
    by_cases hl : l ∈ acc
    · rw [if_pos hl]
      exact h
    · rw [if_neg hl]
      exact idxOf?_append_left acc [l] lab j h

theorem numbered_eq_map (occs : List Str) :
    ∀ acc, numbered acc occs =
      occs.map (fun lab => (lab, pos1 (fOccFrom acc occs) lab)) := by
  induction occs with
  | nil => intro acc; rfl
  | cons lab rest ih =>
    intro acc
    simp only [numbered, List.map_cons, fOccFrom]
    rw [ih (fOccStep acc lab)]
    congr 1
    cases hi : idxOf? acc lab with
    | some j =>
      have hstep : fOccStep acc lab = acc := by
        unfold fOccStep
        rw [if_pos]
        by_contra hx
        have := (idxOf?_eq_none acc lab).mpr hx
        rw [this] at hi
        cases hi
      rw [hstep]
      have := fOcc_stable rest acc lab j hi
      simp [pos1, this]
    | none =>
      have hx : lab ∉ acc := (idxOf?_eq_none acc lab).mp hi
      have hstep : fOccStep acc lab = acc ++ [lab] := by
        unfold fOccStep
        rw [if_neg hx]
      rw [hstep]
      have h1 : idxOf? (acc ++ [lab]) lab = some acc.length :=
        idxOf?_append_self acc lab hx
      have := fOcc_stable rest (acc ++ [lab]) lab acc.length h1
      simp [pos1, this]

theorem occSk_skip (k : Nat) (t : Str) (acc : List Str) :
    CitProc.occSk k t acc = CitProc.occSk 0 (t.drop k) acc := by
  induction k generalizing t with
  | zero => rw [List.drop_zero]
  | succ k ih =>
    cases t with
    | nil => rfl
    | cons c t' =>
      rw [List.drop_succ_cons]
      exact ih t'

theorem scanSk_skip (m : Str → Option (Str × Nat)) (k : Nat) (t : Str) :
    scanSk m k t = scanSk m 0 (t.drop k) := by
  induction k generalizing t with
  | zero => rw [List.drop_zero]
  | succ k ih =>
    cases t with
    | nil => rfl
    | cons c t' =>
      rw [List.drop_succ_cons]
      exact ih t'

theorem occSk_charac (s : Str) (acc : List Str) :
    (CitProc.occSk 0 s acc).2 = fOccFrom acc (scanWith (mCap srcLit) s) ∧
    (CitProc.occSk 0 s acc).1 = numbered acc (scanWith (mCap srcLit) s) := by
  cases s with
  | nil => exact ⟨rfl, rfl⟩
  | cons c t =>
    cases hm : mCap srcLit (c :: t) with
    | none =>
      have h1 : CitProc.occSk 0 (c :: t) acc = CitProc.occSk 0 t acc := by
        simp only [CitProc.occSk, hm]
      have h2 : scanWith (mCap srcLit) (c :: t) = scanWith (mCap srcLit) t := by
        unfold scanWith
        simp only [scanSk, hm]
      rw [h1, h2]
      exact occSk_charac t acc
    | some p =>
      have h2 : scanWith (mCap srcLit) (c :: t) =
          p.1 :: scanWith (mCap srcLit) (t.drop (p.2 - 1)) := by
        unfold scanWith
        simp only [scanSk, hm]
        rw [scanSk_skip]
      rw [h2]
      cases hi : idxOf? acc p.1 with
      | some j =>
        have hstep : fOccStep acc p.1 = acc := by
          unfold fOccStep
          rw [if_pos]
          by_contra hx
          have := (idxOf?_eq_none acc p.1).mpr hx
          rw [this] at hi
          cases hi
        have h1 : CitProc.occSk 0 (c :: t) acc =
            ((p.1, j + 1) :: (CitProc.occSk 0 (t.drop (p.2 - 1)) acc).1,
             (CitProc.occSk 0 (t.drop (p.2 - 1)) acc).2) := by
          simp only [CitProc.occSk, hm, hi]
          rw [occSk_skip]
        rw [h1]
        simp only [fOccFrom, numbered, hi, hstep]
        have ih := occSk_charac (t.drop (p.2 - 1)) acc
        exact ⟨ih.1, by rw [ih.2]⟩
      | none =>
        have hx : p.1 ∉ acc := (idxOf?_eq_none acc p.1).mp hi
        have hstep : fOccStep acc p.1 = acc ++ [p.1] := by
          unfold fOccStep
          rw [if_neg hx]
        have h1 : CitProc.occSk 0 (c :: t) acc =
            ((p.1, acc.length + 1) ::
               (CitProc.occSk 0 (t.drop (p.2 - 1)) (acc ++ [p.1])).1,
             (CitProc.occSk 0 (t.drop (p.2 - 1)) (acc ++ [p.1])).2) := by
          simp only [CitProc.occSk, hm, hi]
          rw [occSk_skip]
        rw [h1]
        simp only [fOccFrom, numbered, hi, hstep]
        have ih := occSk_charac (t.drop (p.2 - 1)) (acc ++ [p.1])
        exact ⟨ih.1, by rw [ih.2]⟩
  termination_by s.length
  decreasing_by
    all_goals simp only [List.length_cons, List.length_drop]
    all_goals omega

/-- Claim C10: on Source-only input (no `[Knowledge Graph: ...]` match),
the three citation implementations extract the same ordered list of
distinct source labels, and `processTextWithCitations` assigns every
marker occurrence exactly the citation number the two map-based
implementations associate with its label (its 1-based position in the
shared source list). -/
theorem citation_impls_agree (t : Str)
    (hk : scanWith (mCap kgLit) t = []) :
    (Response.processCitations t).2 = (Part005.processCitations t).2 ∧
    CitProc.sourcesOf t = (Part005.processCitations t).2 ∧
    CitProc.occAssign t =
      (scanWith (mCap srcLit) t).map
        (fun lab => (lab, pos1 (CitProc.sourcesOf t) lab)) := by
  have hp5 : (Part005.processCitations t).2 = firstOccur (scanWith (mCap srcLit) t) := by
    unfold Part005.processCitations
    by_cases h : firstOccur (scanWith (mCap srcLit) t) = []
    · rw [if_pos h, h]
    · rw [if_neg h]
  have hsrc : CitProc.sourcesOf t = firstOccur (scanWith (mCap srcLit) t) :=
    (occSk_charac t []).1
  refine ⟨?_, ?_, ?_⟩
  · unfold Response.processCitations
    rw [hk, List.append_nil, hp5]
    by_cases h : firstOccur (scanWith (mCap srcLit) t) = []
    · rw [if_pos h, h]
    · rw [if_neg h]
  · rw [hsrc, hp5]
  · unfold CitProc.occAssign
    rw [(occSk_charac t []).2, hsrc]
    exact numbered_eq_map (scanWith (mCap srcLit) t) []

/-- Witness for C10 on `"[Source: A] x [Source: B] y [Source: A]"`. -/
theorem citation_impls_agree_witness :
    scanWith (mCap kgLit) "[Source: A] x [Source: B] y [Source: A]".data = [] ∧
    ((Response.processCitations "[Source: A] x [Source: B] y [Source: A]".data).2 =
        (Part005.processCitations "[Source: A] x [Source: B] y [Source: A]".data).2 ∧
     CitProc.sourcesOf "[Source: A] x [Source: B] y [Source: A]".data =
        (Part005.processCitations "[Source: A] x [Source: B] y [Source: A]".data).2 ∧
     CitProc.occAssign "[Source: A] x [Source: B] y [Source: A]".data =
        (scanWith (mCap srcLit) "[Source: A] x [Source: B] y [Source: A]".data).map
          (fun lab =>
            (lab, pos1 (CitProc.sourcesOf "[Source: A] x [Source: B] y [Source: A]".data) lab))) :=
  ⟨by decide, citation_impls_agree "[Source: A] x [Source: B] y [Source: A]".data (by decide)⟩

/-! ## Claim C2: the citation contract

First the counterexample to the claim as stated: the regex captures the
label only after the greedy `\s*`, so two markers differing only in the
whitespace after the colon carry the same label and the same number, while
the claim's verbatim-label reading (`[Source: ` followed by a run of
non-`]` characters) makes them distinct. -/

/-- Counterexample for C2 as stated: on `"[Source:  A] [Source: A]"` (two
spaces in the first marker, so its claim-side verbatim label is `" A"`) the
implementation returns one source `["A"]` and numbers both markers `[1]`,
while the claim's contract demands the distinct labels `[" A", "A"]`
numbered `[1]` and `[2]`. -/
theorem processCitations_label_counterexample :
    Part005.processCitations "[Source:  A] [Source: A]".data =
      ("[1] [1]".data, ["A".data]) ∧
    Response.processCitations "[Source:  A] [Source: A]".data =
      ("[1] [1]".data, ["A".data]) ∧
    claimCitations "[Source:  A] [Source: A]".data =
      ("[1] [2]".data, [" A".data, "A".data]) ∧
    Part005.processCitations "[Source:  A] [Source: A]".data ≠
      claimCitations "[Source:  A] [Source: A]".data :=
  ⟨by decide, by decide, by decide, by decide⟩

/-! Supporting lemmas for the structured-text characterisation. -/

theorem litMatch_append (p rest : Str) : litMatch p (p ++ rest) = true := by
  induction p with
  | nil => rfl
  | cons c t ih => simp [litMatch, ih]

theorem litMatch_head_ne (x : Char) (ps s : Str) (c : Char) (h : ¬ x = c) :
    litMatch (x :: ps) (c :: s) = false := by
  simp [litMatch, h]

theorem digitChar_range (n : Nat) :
    48 ≤ (digitChar n).toNat ∧ (digitChar n).toNat ≤ 57 := by
  unfold digitChar
  have h : n % 10 < 10 := Nat.mod_lt _ (by omega)
  interval_cases h10 : n % 10 <;> decide

theorem natStrAux_spec (fuel : Nat) : ∀ n, natStrAux fuel n ≠ [] ∧
    ∀ c ∈ natStrAux fuel n, 48 ≤ c.toNat ∧ c.toNat ≤ 57 := by
  induction fuel with
  | zero =>
    intro n
    refine ⟨by simp [natStrAux], ?_⟩
    intro c hc
    simp only [natStrAux, List.mem_singleton] at hc
    subst hc
    exact digitChar_range n
  | succ fuel ih =>
    intro n
    unfold natStrAux
    by_cases h : n < 10
    · rw [if_pos h]
      refine ⟨by simp, ?_⟩
      intro c hc
      rcases List.mem_singleton.mp hc with rfl
      exact digitChar_range n
    · rw [if_neg h]
      refine ⟨by simp [(ih (n / 10)).1], ?_⟩
      intro c hc
      rcases List.mem_append.mp hc with hc | hc
      · exact (ih (n / 10)).2 c hc
      · rcases List.mem_singleton.mp hc with rfl
        exact digitChar_range (n % 10)

theorem natStr_spec (n : Nat) : natStr n ≠ [] ∧
    ∀ c ∈ natStr n, 48 ≤ c.toNat ∧ c.toNat ≤ 57 := natStrAux_spec n n

theorem fOcc_mem (l : List Str) : ∀ (acc : List Str) (x : Str),
    x ∈ acc ∨ x ∈ l → x ∈ fOccFrom acc l := by
  induction l with
  | nil =>
    intro acc x h
    rcases h with h | h
    · exact h
    · cases h
  | cons y t ih =>
    intro acc x h
    simp only [fOccFrom]
    apply ih
    unfold fOccStep
    rcases h with h | h
    · left
      by_cases hy : y ∈ acc
      · rw [if_pos hy]; exact h
      · rw [if_neg hy]; exact List.mem_append_left _ h
    · rcases List.mem_cons.mp h with rfl | h
      · left
        by_cases hy : x ∈ acc
        · rw [if_pos hy]; exact hy
        · rw [if_neg hy]
          exact List.mem_append_right _ (List.mem_singleton.mpr rfl)
      · right; exact h

theorem fOcc_subset (l : List Str) : ∀ (acc : List Str) (x : Str),
    x ∈ fOccFrom acc l → x ∈ acc ∨ x ∈ l := by
  induction l with
  | nil =>
    intro acc x h
    exact Or.inl h
  | cons y t ih =>
    intro acc x h
    simp only [fOccFrom] at h
    rcases ih _ x h with h | h
    · unfold fOccStep at h
      by_cases hy : y ∈ acc
      · rw [if_pos hy] at h
        exact Or.inl h
      · rw [if_neg hy] at h
        rcases List.mem_append.mp h with h | h
        · exact Or.inl h
        · rcases List.mem_singleton.mp h with rfl
          exact Or.inr (List.mem_cons_self _ _)
    · exact Or.inr (List.mem_cons_of_mem _ h)

theorem labelsOf_mem (ss : List Seg) (lab : Str) (h : lab ∈ labelsOf ss) :
    ∃ ws, Seg.marker ws lab ∈ ss := by
  induction ss with
  | nil => cases h
  | cons sg t ih =>
    cases sg with
    | plain p =>
      simp only [labelsOf] at h
      rcases ih h with ⟨ws, hw⟩
      exact ⟨ws, List.mem_cons_of_mem _ hw⟩
    | numref m =>
      simp only [labelsOf] at h
      rcases ih h with ⟨ws, hw⟩
      exact ⟨ws, List.mem_cons_of_mem _ hw⟩
    | marker ws lab' =>
      simp only [labelsOf, List.mem_cons] at h
      rcases h with rfl | h
      · exact ⟨ws, List.mem_cons_self _ _⟩
      · rcases ih h with ⟨ws', hw⟩
        exact ⟨ws', List.mem_cons_of_mem _ hw⟩

theorem mem_withIdxFrom {α : Type} (l : List α) : ∀ (n : Nat) (pr : α × Nat),
    pr ∈ withIdxFrom n l → pr.1 ∈ l := by
  induction l with
  | nil => intro n pr h; cases h
  | cons x t ih =>
    intro n pr h
    simp only [withIdxFrom, List.mem_cons] at h
    rcases h with rfl | h
    · exact List.mem_cons_self _ _
    · exact List.mem_cons_of_mem _ (ih (n + 1) pr h)

/-! Scan phase over a structured text. -/

theorem scanSk_cons_some (m : Str → Option (Str × Nat)) (c : Char) (t : Str)
    (lab : Str) (k : Nat) (h : m (c :: t) = some (lab, k)) :
    scanSk m 0 (c :: t) = lab :: scanSk m 0 (t.drop (k - 1)) := by
  simp only [scanSk, h]
  rw [scanSk_skip]

theorem scanSk_cons_none (m : Str → Option (Str × Nat)) (c : Char) (t : Str)
    (h : m (c :: t) = none) : scanSk m 0 (c :: t) = scanSk m 0 t := by
  simp only [scanSk, h]

theorem wsRunLen_append (ws s : Str) (hws : ∀ c ∈ ws, jsWs c = true)
    (hh : ∀ c, s.head? = some c → jsWs c = false) :
    wsRunLen (ws ++ s) = ws.length := by
  induction ws with
  | nil =>
    cases s with
    | nil => rfl
    | cons c t =>
      have := hh c rfl
      simp [wsRunLen, List.takeWhile, this]
  | cons w t ih =>
    have hw : jsWs w = true := hws w (List.mem_cons_self _ _)
    have ht : ∀ c ∈ t, jsWs c = true := fun c hc => hws c (List.mem_cons_of_mem _ hc)
    simp only [List.cons_append, wsRunLen]
    rw [List.takeWhile_cons_of_pos hw]
    simp only [List.length_cons]
    have := ih ht
    simp only [wsRunLen] at this
    rw [this]

theorem takeWhile_nonbrk (lab rest : Str) (h : ']' ∉ lab) :
    (lab ++ ']' :: rest).takeWhile (fun c => ¬ c = ']') = lab := by
  induction lab with
  | nil =>
    rw [List.nil_append, List.takeWhile_cons_of_neg]
    simp
  | cons x t ih =>
    simp only [List.mem_cons, not_or] at h
    have hx : ¬ x = ']' := fun he => h.1 he.symm
    rw [List.cons_append, List.takeWhile_cons_of_pos (by simpa using hx), ih h.2]

theorem mCapTry_top (s : Str) (k : Nat) (p : Str × Nat) (h : mCapAt s k = some p) :
    mCapTry s k = some p := by
  cases k with
  | zero => exact h
  | succ k =>
    unfold mCapTry
    rw [h]

theorem mCap_marker (ws lab rest : Str) (hws : ∀ c ∈ ws, jsWs c = true)
    (hlab : goodLab lab) :
    mCap srcLit (srcLit ++ (ws ++ (lab ++ (']' :: rest)))) =
      some (lab, srcLit.length + (ws.length + lab.length + 1)) := by
  obtain ⟨hne, hbr, hhd⟩ := hlab
  have hh : ∀ c, (lab ++ (']' :: rest)).head? = some c → jsWs c = false := by
    intro c hc
    cases lab with
    | nil => exact absurd rfl hne
    | cons l₀ t =>
      simp only [List.cons_append, List.head?_cons, Option.some.injEq] at hc
      subst hc
      simp only [List.headI] at hhd
      exact Bool.eq_false_iff.mpr hhd
  have hbr' : ']' ∉ lab := by
    intro hmem
    exact (hbr ']' hmem).2 rfl
  have hdrop : (srcLit ++ (ws ++ (lab ++ (']' :: rest)))).drop srcLit.length =
      ws ++ (lab ++ (']' :: rest)) := List.drop_left _ _
  have hwr : wsRunLen (ws ++ (lab ++ (']' :: rest))) = ws.length :=
    wsRunLen_append ws _ hws hh
  have hAt : mCapAt (ws ++ (lab ++ (']' :: rest))) ws.length =
      some (lab, ws.length + lab.length + 1) := by
    unfold mCapAt
    rw [List.drop_left, takeWhile_nonbrk lab rest hbr', List.drop_left]
    rw [if_pos ⟨by simpa using hne, rfl⟩]
  unfold mCap
  rw [if_pos (litMatch_append srcLit _), hdrop, hwr, mCapTry_top _ _ _ hAt]
  rfl

theorem mCap_src_none_head (c : Char) (t : Str) (h : ¬ c = '[') :
    mCap srcLit (c :: t) = none := by
  unfold mCap
  rw [if_neg]
  rw [show srcLit = '[' :: "Source:".data from rfl,
    litMatch_head_ne '[' _ t c (fun he => h he.symm)]
  simp

theorem scan_plain (p rest : Str) (h : '[' ∉ p) :
    scanSk (mCap srcLit) 0 (p ++ rest) = scanSk (mCap srcLit) 0 rest := by
  induction p with
  | nil => rfl
  | cons c t ih =>
    simp only [List.mem_cons, not_or] at h
    rw [List.cons_append,
      scanSk_cons_none _ _ _ (mCap_src_none_head c _ (fun he => h.1 he.symm)),
      ih h.2]

theorem scan_marker (ws lab rest : Str) (hws : ∀ c ∈ ws, jsWs c = true)
    (hlab : goodLab lab) :
    scanSk (mCap srcLit) 0 ((Seg.marker ws lab).render ++ rest) =
      lab :: scanSk (mCap srcLit) 0 rest := by
  have hfull : (Seg.marker ws lab).render ++ rest =
      srcLit ++ (ws ++ (lab ++ (']' :: rest))) := by
    simp [Seg.render, List.append_assoc]
  have hcons : srcLit ++ (ws ++ (lab ++ (']' :: rest))) =
      '[' :: ("Source:".data ++ (ws ++ (lab ++ (']' :: rest)))) := rfl
  have hm := mCap_marker ws lab rest hws hlab
  rw [hcons] at hm
  rw [hfull, hcons, scanSk_cons_some _ _ _ _ _ hm]
  congr 1
  have hP : "Source:".data ++ (ws ++ (lab ++ (']' :: rest))) =
      ("Source:".data ++ (ws ++ (lab ++ [']']))) ++ rest := by
    simp [List.append_assoc]
  have hlen : srcLit.length + (ws.length + lab.length + 1) - 1 =
      ("Source:".data ++ (ws ++ (lab ++ [']']))).length := by
    simp [srcLit, List.length_append]
    omega
  rw [hP, hlen, List.drop_left]

theorem litMatch_src_digit (d : Char) (X : Str)
    (hd : 48 ≤ d.toNat ∧ d.toNat ≤ 57) :
    litMatch srcLit ('[' :: (d :: X)) = false := by
  have hne : ¬ 'S' = d := by
    intro he
    rw [← he] at hd
    revert hd
    decide
  rw [show srcLit = '[' :: ('S' :: "ource:".data) from rfl]
  simp [litMatch, hne]

theorem scan_numref (n : Nat) (rest : Str) :
    scanSk (mCap srcLit) 0 ((Seg.numref n).render ++ rest) =
      scanSk (mCap srcLit) 0 rest := by
  have hnb : '[' ∉ natStr n ++ [']'] := by
    intro hmem
    rcases List.mem_append.mp hmem with hmem | hmem
    · have := ((natStr_spec n).2 '[' hmem).2
      revert this
      decide
    · rcases List.mem_singleton.mp hmem with h
      cases h
  have hfull : (Seg.numref n).render ++ rest =
      '[' :: ((natStr n ++ [']']) ++ rest) := by
    simp [Seg.render, numRef, List.append_assoc]
  have hnone : mCap srcLit ('[' :: ((natStr n ++ [']']) ++ rest)) = none := by
    unfold mCap
    cases hns : natStr n with
    | nil => exact absurd hns (natStr_spec n).1
    | cons d ds =>
      have hd := (natStr_spec n).2 d (hns ▸ List.mem_cons_self _ _)
      have hx : ((d :: ds) ++ [']']) ++ rest = d :: ((ds ++ [']']) ++ rest) := by
        simp
      rw [hx, litMatch_src_digit d _ hd]
      simp
  rw [hfull, scanSk_cons_none _ _ _ hnone, scan_plain _ _ hnb]

theorem scan_render (ss : List Seg) (h : ∀ sg ∈ ss, sg.good) :
    scanWith (mCap srcLit) (renderAll ss) = labelsOf ss := by
  induction ss with
  | nil => rfl
  | cons sg t ih =>
    have hgt : ∀ x ∈ t, x.good := fun x hx => h x (List.mem_cons_of_mem _ hx)
    have hg : sg.good := h sg (List.mem_cons_self _ _)
    have hr : renderAll (sg :: t) = sg.render ++ renderAll t := by
      simp [renderAll]
    unfold scanWith at ih ⊢
    rw [hr]
    cases sg with
    | plain p =>
      simp only [Seg.good] at hg
      simp only [Seg.render]
      rw [scan_plain p _ hg, ih hgt]
      rfl
    | marker ws lab =>
      simp only [Seg.good] at hg
      rw [scan_marker ws lab _ (fun c hc => hg.1 c hc) hg.2, ih hgt]
      rfl
    | numref m =>
      rw [scan_numref m _, ih hgt]
      rfl

/-! Replacement phase over a structured text. -/

theorem repSk_skip (m : Str → Option Nat) (rep : Str) (k : Nat) (t : Str) :
    repSk m rep k t = repSk m rep 0 (t.drop k) := by
  induction k generalizing t with
  | zero => rw [List.drop_zero]
  | succ k ih =>
    cases t with
    | nil => rfl
    | cons c t' =>
      rw [List.drop_succ_cons]
      exact ih t'

theorem repSk_cons_some (m : Str → Option Nat) (rep : Str) (c : Char) (t : Str)
    (k : Nat) (h : m (c :: t) = some k) :
    repSk m rep 0 (c :: t) = rep ++ repSk m rep 0 (t.drop (k - 1)) := by
  simp only [repSk, h]
  rw [repSk_skip]

theorem repSk_cons_none (m : Str → Option Nat) (rep : Str) (c : Char) (t : Str)
    (h : m (c :: t) = none) :
    repSk m rep 0 (c :: t) = c :: repSk m rep 0 t := by
  simp only [repSk, h]

theorem mPat_src_none_head (L : Str) (c : Char) (t : Str) (h : ¬ c = '[') :
    mPat srcLit L (c :: t) = none := by
  unfold mPat
  rw [if_neg]
  rw [show srcLit = '[' :: "Source:".data from rfl,
    litMatch_head_ne '[' _ t c (fun he => h he.symm)]
  simp

theorem rep_plain (L : Str) (rep : Str) (p rest : Str) (h : '[' ∉ p) :
    repSk (mPat srcLit L) rep 0 (p ++ rest) =
      p ++ repSk (mPat srcLit L) rep 0 rest := by
  induction p with
  | nil => rfl
  | cons c t ih =>
    simp only [List.mem_cons, not_or] at h
    rw [List.cons_append,
      repSk_cons_none _ _ _ _ (mPat_src_none_head L c _ (fun he => h.1 he.symm)),
      ih h.2, List.cons_append]

theorem litMatch_label_ne (L : Str) : ∀ (lab rest : Str), ']' ∉ L → ']' ∉ lab →
    ¬ L = lab → litMatch (L ++ [']']) (lab ++ ']' :: rest) = false := by
  induction L with
  | nil =>
    intro lab rest _ hlab hne
    cases lab with
    | nil => exact absurd rfl hne
    | cons x t =>
      simp only [List.mem_cons, not_or] at hlab
      rw [List.nil_append, List.cons_append]
      exact litMatch_head_ne ']' _ _ x hlab.1
  | cons y L' ih =>
    intro lab rest hL hlab hne
    simp only [List.mem_cons, not_or] at hL
    cases lab with
    | nil =>
      rw [List.cons_append, List.nil_append]
      exact litMatch_head_ne y _ _ ']' (fun he => hL.1 he.symm)
    | cons x t =>
      simp only [List.mem_cons, not_or] at hlab
      by_cases hyx : y = x
      · subst hyx
        rw [List.cons_append, List.cons_append]
        have : litMatch (y :: (L' ++ [']'])) (y :: (t ++ ']' :: rest)) =
            litMatch (L' ++ [']']) (t ++ ']' :: rest) := by
          simp [litMatch]
        rw [this]
        exact ih t rest hL.2 hlab.2 (fun he => hne (by rw [he]))
      · rw [List.cons_append, List.cons_append]
        exact litMatch_head_ne y _ _ x hyx

theorem mPatTry_top (label s : Str) (k : Nat) (v : Nat)
    (h : mPatAt label s k = some v) : mPatTry label s k = some v := by
  cases k with
  | zero => exact h
  | succ k =>
    unfold mPatTry
    rw [h]

theorem mPatTry_none (label s : Str) : ∀ (k : Nat),
    (∀ k' ≤ k, mPatAt label s k' = none) → mPatTry label s k = none := by
  intro k
  induction k with
  | zero =>
    intro h
    exact h 0 le_rfl
  | succ k ih =>
    intro h
    unfold mPatTry
    rw [h (k + 1) le_rfl]
    exact ih (fun k' hk' => h k' (le_trans hk' (Nat.le_succ k)))

theorem mPat_marker_eq (ws L rest : Str) (hws : ∀ c ∈ ws, jsWs c = true)
    (hL : goodLab L) :
    mPat srcLit L (srcLit ++ (ws ++ (L ++ (']' :: rest)))) =
      some (srcLit.length + (ws.length + L.length + 1)) := by
  obtain ⟨hne, hbr, hhd⟩ := hL
  have hh : ∀ c, (L ++ (']' :: rest)).head? = some c → jsWs c = false := by
    intro c hc
    cases L with
    | nil => exact absurd rfl hne
    | cons l₀ t =>
      simp only [List.cons_append, List.head?_cons, Option.some.injEq] at hc
      subst hc
      simp only [List.headI] at hhd
      exact Bool.eq_false_iff.mpr hhd
  have hAt : mPatAt L (ws ++ (L ++ (']' :: rest))) ws.length =
      some (ws.length + L.length + 1) := by
    unfold mPatAt
    rw [List.drop_left]
    rw [if_pos]
    have : (L ++ [']']) ++ rest = L ++ (']' :: rest) := by simp
    rw [← this]
    exact litMatch_append _ _
  unfold mPat
  rw [if_pos (litMatch_append srcLit _), List.drop_left,
    wsRunLen_append ws _ hws hh, mPatTry_top _ _ _ _ hAt]
  rfl

theorem mPat_marker_ne (ws lab L rest : Str) (hws : ∀ c ∈ ws, jsWs c = true)
    (hlab : goodLab lab) (hL : goodLab L) (hne : ¬ L = lab) :
    mPat srcLit L (srcLit ++ (ws ++ (lab ++ (']' :: rest)))) = none := by
  have hbrL : ']' ∉ L := fun hm => (hL.2.1 ']' hm).2 rfl
  have hbrlab : ']' ∉ lab := fun hm => (hlab.2.1 ']' hm).2 rfl
  have hAt : ∀ k ≤ ws.length,
      mPatAt L (ws ++ (lab ++ (']' :: rest))) k = none := by
    intro k hk
    unfold mPatAt
    rw [if_neg]
    rw [List.drop_append_of_le_length hk]
    cases hd : ws.drop k with
    | nil =>
      rw [List.nil_append]
      simp [litMatch_label_ne L lab rest hbrL hbrlab hne]
    | cons w ws' =>
      have hwmem : w ∈ ws := List.drop_subset k ws (hd ▸ List.mem_cons_self _ _)
      have hwws : jsWs w = true := hws w hwmem
      cases hL0 : L with
      | nil => exact absurd hL0 hL.1
      | cons l₀ L' =>
        have hl₀ : ¬ jsWs (List.headI (l₀ :: L')) = true := hL0 ▸ hL.2.2
        simp only [List.headI] at hl₀
        have hne' : ¬ l₀ = w := by
          intro he
          rw [he] at hl₀
          exact hl₀ hwws
        rw [List.cons_append, List.cons_append]
        simp [litMatch_head_ne l₀ _ _ w hne']
  unfold mPat
  rw [if_pos (litMatch_append srcLit _), List.drop_left]
  have hh : ∀ c, (lab ++ (']' :: rest)).head? = some c → jsWs c = false := by
    intro c hc
    cases hlab0 : lab with
    | nil => exact absurd hlab0 hlab.1
    | cons l₀ t =>
      rw [hlab0] at hc
      simp only [List.cons_append, List.head?_cons, Option.some.injEq] at hc
      subst hc
      have := hlab0 ▸ hlab.2.2
      simp only [List.headI] at this
      exact Bool.eq_false_iff.mpr this
  rw [wsRunLen_append ws _ hws hh, mPatTry_none _ _ _ (fun k' hk' => hAt k' hk')]
  rfl

theorem rep_marker_eq (L : Str) (rep : Str) (ws rest : Str)
    (hws : ∀ c ∈ ws, jsWs c = true) (hL : goodLab L) :
    repSk (mPat srcLit L) rep 0 ((Seg.marker ws L).render ++ rest) =
      rep ++ repSk (mPat srcLit L) rep 0 rest := by
  have hfull : (Seg.marker ws L).render ++ rest =
      srcLit ++ (ws ++ (L ++ (']' :: rest))) := by
    simp [Seg.render, List.append_assoc]
  have hcons : srcLit ++ (ws ++ (L ++ (']' :: rest))) =
      '[' :: ("Source:".data ++ (ws ++ (L ++ (']' :: rest)))) := rfl
  have hm := mPat_marker_eq ws L rest hws hL
  rw [hcons] at hm
  rw [hfull, hcons, repSk_cons_some _ _ _ _ _ hm]
  congr 2
  have hP : "Source:".data ++ (ws ++ (L ++ (']' :: rest))) =
      ("Source:".data ++ (ws ++ (L ++ [']']))) ++ rest := by
    simp [List.append_assoc]
  have hlen : srcLit.length + (ws.length + L.length + 1) - 1 =
      ("Source:".data ++ (ws ++ (L ++ [']']))).length := by
    simp [srcLit, List.length_append]
    omega
  rw [hP, hlen, List.drop_left]

theorem rep_marker_ne (L : Str) (rep : Str) (ws lab rest : Str)
    (hws : ∀ c ∈ ws, jsWs c = true) (hlab : goodLab lab) (hL : goodLab L)
    (hne : ¬ L = lab) :
    repSk (mPat srcLit L) rep 0 ((Seg.marker ws lab).render ++ rest) =
      (Seg.marker ws lab).render ++ repSk (mPat srcLit L) rep 0 rest := by
  have hfull : (Seg.marker ws lab).render ++ rest =
      srcLit ++ (ws ++ (lab ++ (']' :: rest))) := by
    simp [Seg.render, List.append_assoc]
  have hcons : srcLit ++ (ws ++ (lab ++ (']' :: rest))) =
      '[' :: ("Source:".data ++ (ws ++ (lab ++ (']' :: rest)))) := rfl
  have hm := mPat_marker_ne ws lab L rest hws hlab hL hne
  rw [hcons] at hm
  have hint : "Source:".data ++ (ws ++ (lab ++ (']' :: rest))) =
      ("Source:".data ++ (ws ++ (lab ++ [']']))) ++ rest := by
    simp [List.append_assoc]
  have hnb : '[' ∉ "Source:".data ++ (ws ++ (lab ++ [']'])) := by
    intro hmem
    rcases List.mem_append.mp hmem with hmem | hmem
    · revert hmem
      decide
    · rcases List.mem_append.mp hmem with hmem | hmem
      · have := hws '[' hmem
        revert this
        decide
      · rcases List.mem_append.mp hmem with hmem | hmem
        · exact (hlab.2.1 '[' hmem).1 rfl
        · rcases List.mem_singleton.mp hmem with h
          cases h
  rw [hfull, hcons, repSk_cons_none _ _ _ _ hm, hint, rep_plain L rep _ rest hnb]
  simp [Seg.render, srcLit, List.append_assoc]

theorem rep_numref (L : Str) (rep : Str) (n : Nat) (rest : Str) :
    repSk (mPat srcLit L) rep 0 ((Seg.numref n).render ++ rest) =
      (Seg.numref n).render ++ repSk (mPat srcLit L) rep 0 rest := by
  have hnb : '[' ∉ natStr n ++ [']'] := by
    intro hmem
    rcases List.mem_append.mp hmem with hmem | hmem
    · have := ((natStr_spec n).2 '[' hmem).2
      revert this
      decide
    · rcases List.mem_singleton.mp hmem with h
      cases h
  have hfull : (Seg.numref n).render ++ rest =
      '[' :: ((natStr n ++ [']']) ++ rest) := by
    simp [Seg.render, numRef, List.append_assoc]
  have hnone : mPat srcLit L ('[' :: ((natStr n ++ [']']) ++ rest)) = none := by
    unfold mPat
    cases hns : natStr n with
    | nil => exact absurd hns (natStr_spec n).1
    | cons d ds =>
      have hd := (natStr_spec n).2 d (hns ▸ List.mem_cons_self _ _)
      have hx : ((d :: ds) ++ [']']) ++ rest = d :: ((ds ++ [']']) ++ rest) := by
        simp
      rw [hx, litMatch_src_digit d _ hd]
      simp
  rw [hfull, repSk_cons_none _ _ _ _ hnone, rep_plain L rep _ rest hnb]
  simp [Seg.render, numRef, List.append_assoc]

theorem substSeg_good (L : Str) (i : Nat) (sg : Seg) (h : sg.good) :
    (substSeg L i sg).good := by
  cases sg with
  | plain p => exact h
  | numref m => exact h
  | marker ws lab =>
    simp only [substSeg]
    by_cases he : lab = L
    · simp only [if_pos he, Seg.good]
    · simp only [if_neg he]
      exact h

theorem replace_render (L : Str) (hL : goodLab L) (i : Nat) (ss : List Seg)
    (h : ∀ sg ∈ ss, sg.good) :
    replaceWith (mPat srcLit L) (numRef i) (renderAll ss) =
      renderAll (ss.map (substSeg L i)) := by
  induction ss with
  | nil => rfl
  | cons sg t ih =>
    have hgt : ∀ x ∈ t, x.good := fun x hx => h x (List.mem_cons_of_mem _ hx)
    have hg : sg.good := h sg (List.mem_cons_self _ _)
    have hr : renderAll (sg :: t) = sg.render ++ renderAll t := by
      simp [renderAll]
    have hr2 : renderAll (substSeg L i sg :: t.map (substSeg L i)) =
        (substSeg L i sg).render ++ renderAll (t.map (substSeg L i)) := by
      simp [renderAll]
    unfold replaceWith at ih ⊢
    rw [hr]
    simp only [List.map_cons]
    rw [hr2]
    cases sg with
    | plain p =>
      simp only [Seg.good] at hg
      simp only [Seg.render, substSeg]
      rw [rep_plain L (numRef i) p _ hg, ih hgt]
    | numref m =>
      simp only [substSeg]
      rw [rep_numref L (numRef i) m _, ih hgt]
    | marker ws lab =>
      simp only [Seg.good] at hg
      by_cases he : lab = L
      · subst he
        simp only [substSeg, if_pos rfl]
        rw [rep_marker_eq lab (numRef i) ws _ (fun c hc => hg.1 c hc) hg.2, ih hgt]
        simp [Seg.render]
      · simp only [substSeg, if_neg he]
        rw [rep_marker_ne L (numRef i) ws lab _ (fun c hc => hg.1 c hc) hg.2 hL
          (fun hx => he hx.symm), ih hgt]

/-! Assembling the replacement phase: folding the per-label passes. -/

theorem foldl_substSeg_plain (pairs : List (Str × Nat)) (p : Str) :
    pairs.foldl (fun s pr => substSeg pr.1 pr.2 s) (Seg.plain p) = Seg.plain p := by
  induction pairs with
  | nil => rfl
  | cons pr rest ih =>
    rw [List.foldl_cons]
    exact ih

theorem foldl_substSeg_numref (pairs : List (Str × Nat)) (m : Nat) :
    pairs.foldl (fun s pr => substSeg pr.1 pr.2 s) (Seg.numref m) = Seg.numref m := by
  induction pairs with
  | nil => rfl
  | cons pr rest ih =>
    rw [List.foldl_cons]
    exact ih

theorem substFold_marker (sources : List Str) : ∀ (n : Nat) (ws lab : Str),
    (withIdxFrom n sources).foldl (fun s pr => substSeg pr.1 pr.2 s)
        (Seg.marker ws lab) =
      (match idxOf? sources lab with
       | some j => Seg.numref (n + j)
       | none => Seg.marker ws lab) := by
  induction sources with
  | nil => intro n ws lab; rfl
  | cons s₀ rest ih =>
    intro n ws lab
    simp only [withIdxFrom, List.foldl_cons, idxOf?]
    by_cases he : lab = s₀
    · have hs : s₀ = lab := he.symm
      rw [if_pos hs]
      have hsub : substSeg s₀ n (Seg.marker ws lab) = Seg.numref n := by
        simp [substSeg, he]
      rw [hsub, foldl_substSeg_numref]
      simp
    · rw [if_neg (fun hx => he hx.symm)]
      have hsub : substSeg s₀ n (Seg.marker ws lab) = Seg.marker ws lab := by
        simp [substSeg, he]
      rw [hsub, ih (n + 1) ws lab]
      cases hi : idxOf? rest lab with
      | some j =>
        simp only [Option.map_some']
        congr 1
        omega
      | none => rfl

theorem foldl_map (pairs : List (Str × Nat)) : ∀ (ss : List Seg),
    pairs.foldl (fun acc pr => acc.map (substSeg pr.1 pr.2)) ss =
      ss.map (fun sg => pairs.foldl (fun s pr => substSeg pr.1 pr.2 s) sg) := by
  induction pairs with
  | nil =>
    intro ss
    simp
  | cons pr rest ih =>
    intro ss
    rw [List.foldl_cons, ih (ss.map (substSeg pr.1 pr.2)), List.map_map]
    simp only [List.foldl_cons]
    rfl

theorem mem_labelsOf (ss : List Seg) (ws lab : Str)
    (h : Seg.marker ws lab ∈ ss) : lab ∈ labelsOf ss := by
  induction ss with
  | nil => cases h
  | cons sg t ih =>
    rcases List.mem_cons.mp h with he | hm
    · rw [← he]
      simp [labelsOf]
    · cases sg with
      | plain p => simpa [labelsOf] using ih hm
      | numref m => simpa [labelsOf] using ih hm
      | marker ws' lab' =>
        simp only [labelsOf, List.mem_cons]
        exact Or.inr (ih hm)

theorem applyReps_render (pairs : List (Str × Nat)) : ∀ (ss : List Seg),
    (∀ sg ∈ ss, sg.good) → (∀ pr ∈ pairs, goodLab pr.1) →
    Part005.applyReps (renderAll ss) pairs =
      renderAll (pairs.foldl (fun acc pr => acc.map (substSeg pr.1 pr.2)) ss) := by
  induction pairs with
  | nil => intro ss _ _; rfl
  | cons pr rest ih =>
    intro ss hss hp
    unfold Part005.applyReps at ih ⊢
    rw [List.foldl_cons, List.foldl_cons]
    have hL : goodLab pr.1 := hp pr (List.mem_cons_self _ _)
    rw [replace_render pr.1 hL pr.2 ss hss]
    exact ih (ss.map (substSeg pr.1 pr.2))
      (fun sg hsg => by
        rcases List.mem_map.mp hsg with ⟨sg₀, hsg₀, rfl⟩
        exact substSeg_good pr.1 pr.2 sg₀ (hss sg₀ hsg₀))
      (fun q hq => hp q (List.mem_cons_of_mem _ hq))

/-- Claim C2, amended: the regex captures the label only after the greedy
`\s*` (so markers differing only in whitespace after the colon carry the
same label, unlike the claim's verbatim reading, refuted above).  For every
text assembled from marker-free spans without `[`, markers whose captured
labels are nonempty, bracket-free and not whitespace-initial, and numeric
references, `processCitations` replaces each marker by `[n]` with `n` the
1-based first-occurrence order of its captured label under exact string
equality, and returns the distinct captured labels in first-occurrence
order — in particular the specification's example
`"[Source: A] and [Source: B] then [Source: A]"` yields
`"[1] and [2] then [1]"` with sources `["A", "B"]`. -/
theorem processCitations_structured (ss : List Seg)
    (h : ∀ sg ∈ ss, sg.good) :
    Part005.processCitations (renderAll ss) =
      (renderAll (ss.map (numberSeg (firstOccur (labelsOf ss)))),
       firstOccur (labelsOf ss)) := by
  have hscan : scanWith (mCap srcLit) (renderAll ss) = labelsOf ss :=
    scan_render ss h
  unfold Part005.processCitations
  rw [hscan]
  by_cases hempty : firstOccur (labelsOf ss) = []
  · rw [if_pos hempty, hempty]
    have hnomark : ∀ sg ∈ ss, sg = numberSeg [] sg := by
      intro sg hsg
      cases sg with
      | plain p => rfl
      | numref m => rfl
      | marker ws lab =>
        exfalso
        have hlabmem : lab ∈ labelsOf ss := mem_labelsOf ss ws lab hsg
        have hin : lab ∈ firstOccur (labelsOf ss) :=
          fOcc_mem _ [] lab (Or.inr hlabmem)
        rw [hempty] at hin
        cases hin
    have hmap : ss.map (numberSeg []) = ss := by
      calc ss.map (numberSeg []) = ss.map id :=
            List.map_congr_left (fun sg hsg => (hnomark sg hsg).symm)
        _ = ss := List.map_id ss
    rw [hmap]
  · rw [if_neg hempty]
    have hp : ∀ pr ∈ withIdxFrom 1 (firstOccur (labelsOf ss)), goodLab pr.1 := by
      intro pr hpr
      have h1 : pr.1 ∈ firstOccur (labelsOf ss) :=
        mem_withIdxFrom _ 1 pr hpr
      have h2 : pr.1 ∈ labelsOf ss := by
        rcases fOcc_subset _ [] pr.1 h1 with hx | hx
        · cases hx
        · exact hx
      rcases labelsOf_mem ss pr.1 h2 with ⟨ws, hw⟩
      exact (h _ hw).2
    rw [applyReps_render _ ss h hp, foldl_map]
    refine Prod.ext ?_ rfl
    simp only
    congr 1
    apply List.map_congr_left
    intro sg hsg
    cases sg with
    | plain p => exact foldl_substSeg_plain _ p
    | numref m => exact foldl_substSeg_numref _ m
    | marker ws lab =>
      rw [substFold_marker]
      simp only [numberSeg]
      cases hi : idxOf? (firstOccur (labelsOf ss)) lab with
      | some j =>
        simp only
        congr 1
        omega
      | none => rfl

/-- Witness for C2 (amended) at the specification's own example. -/
theorem processCitations_structured_witness :
    (∀ sg ∈ exampleSegs, sg.good) ∧
    renderAll exampleSegs = "[Source: A] and [Source: B] then [Source: A]".data ∧
    Part005.processCitations (renderAll exampleSegs) =
      (renderAll (exampleSegs.map (numberSeg (firstOccur (labelsOf exampleSegs)))),
       firstOccur (labelsOf exampleSegs)) ∧
    renderAll (exampleSegs.map (numberSeg (firstOccur (labelsOf exampleSegs)))) =
      "[1] and [2] then [1]".data ∧
    firstOccur (labelsOf exampleSegs) = ["A".data, "B".data] := by
  have hg : ∀ sg ∈ exampleSegs, sg.good := by
    intro sg hsg
    simp only [exampleSegs, List.mem_cons, List.not_mem_nil, or_false] at hsg
    rcases hsg with rfl | rfl | rfl | rfl | rfl <;>
      simp only [Seg.good, goodLab] <;> decide
  exact ⟨hg, by decide, processCitations_structured exampleSegs hg, by decide,
    by decide⟩

/-! ## Claim C4: empty content is rejected before persistence -/

/-- Claim C4: an ingestion request with an empty content string fails with
the 400 "Title and content are required" response (the specification's
`InvalidContentError`) before `chunkText` or `processDocumentForRAG` run:
no document row and no passage row is written. -/
theorem postJson_empty_content (fuel : Nat)
    (embed : Str → Except Unit (List Int)) (title : Str) (source : Option Str)
    (userId : Str) :
    postJson fuel embed title [] source userId =
      some (RouteRes.badRequest requiredMsg, [], []) := by
  unfold postJson
  rw [if_pos (Or.inr rfl)]

/-! ## Claim C5: the sanitization -/

theorem cleanText_single_slice (t : Str) (h : t.length ≤ 10000) :
    cleanText t = jsTrim (collapseWs (t.filter keepChar)) := by
  unfold cleanText
  by_cases h0 : t.length = 0
  · have ht : t = [] := List.length_eq_zero.mp h0
    subst ht
    have hch : chunksOf (10000 : Nat) ([] : Str) = [] := by
      unfold chunksOf
      rw [if_neg (by decide), if_pos (by decide), if_pos (by decide)]
    rw [hch]
    rfl
  · have hch : chunksOf 10000 t = [t] := by
      unfold chunksOf
      rw [if_neg (by decide), if_pos h, if_neg h0]
    rw [hch]
    rfl

/-- Counterexample for C5 as stated: the claim's sanitization (remove null
bytes and all non-printable control characters, collapse whitespace runs,
nothing else) disagrees with `cleanText` already on `" \x7Fa"`: `cleanText`
keeps DEL (code 127 ≥ 32) and trims the leading space, giving `"\x7Fa"`,
while the claim's description gives `" a"`. -/
theorem cleanText_counterexample :
    cleanText [' ', Char.ofNat 127, 'a'] = [Char.ofNat 127, 'a'] ∧
    claimClean [' ', Char.ofNat 127, 'a'] = [' ', 'a'] ∧
    ¬ cleanText [' ', Char.ofNat 127, 'a'] = claimClean [' ', Char.ofNat 127, 'a'] := by
  have h := cleanText_single_slice [' ', Char.ofNat 127, 'a'] (by decide)
  refine ⟨by rw [h]; decide, by decide, by rw [h]; decide⟩

/-- Claim C5, amended: for texts of at most 10000 characters (one slice),
the persisted value equals the input with the characters of code < 32 other
than tab, CR, LF removed (DEL, code 127, is kept), every whitespace run
collapsed to a single space, and leading/trailing whitespace trimmed; for
longer texts this is applied per 10000-character slice and the slices are
joined with single spaces.  The same `cleanText` is applied uniformly to
title, content and source before the document row is written. -/
theorem cleanText_spec (t : Str) (h : t.length ≤ 10000) :
    cleanText t = jsTrim (collapseWs (t.filter keepChar)) ∧
    ∀ (embed : Str → Except Unit (List Int)) (title content : Str)
      (chunks : List Str) (source : Option Str) (userId : Str),
      (processDocumentForRAG embed title content chunks source userId).doc =
        ⟨cleanText title, cleanText content, source.map cleanText, userId⟩ :=
  ⟨cleanText_single_slice t h, fun _ _ _ _ _ _ => rfl⟩

/-- Witness for C5 (amended). -/
theorem cleanText_spec_witness :
    "a \t b".data.length ≤ 10000 ∧
    (cleanText "a \t b".data = jsTrim (collapseWs ("a \t b".data.filter keepChar)) ∧
     ∀ (embed : Str → Except Unit (List Int)) (title content : Str)
       (chunks : List Str) (source : Option Str) (userId : Str),
       (processDocumentForRAG embed title content chunks source userId).doc =
         ⟨cleanText title, cleanText content, source.map cleanText, userId⟩) :=
  ⟨by decide, cleanText_spec "a \t b".data (by decide)⟩

/-! ## Claim C3: embedding validation and partial-batch persistence -/

theorem batchErr_none_iff (embed : Str → Except Unit (List Int)) :
    ∀ (b : List (Str × Nat)),
      batchErr embed b = none ↔ ∀ p ∈ b, chunkFails embed p.1 = false := by
  intro b
  induction b with
  | nil => simp [batchErr]
  | cons q t ih =>
    simp only [batchErr, List.findSome?_cons] at ih ⊢
    cases hq : chunkOutcome embed q.1 with
    | error e =>
      simp only [chunkFails, hq]
      constructor
      · intro h; cases h
      · intro h
        have := h q (List.mem_cons_self _ _)
        simp [chunkFails, hq] at this
    | ok r =>
      simp only
      rw [ih]
      constructor
      · intro h p hp
        rcases List.mem_cons.mp hp with rfl | hp
        · simp [chunkFails, hq]
        · exact h p hp
      · intro h p hp
        exact h p (List.mem_cons_of_mem _ hp)

theorem batchErr_isSome_iff (embed : Str → Except Unit (List Int))
    (b : List (Str × Nat)) :
    (batchErr embed b).isSome = true ↔ ∃ p ∈ b, chunkFails embed p.1 = true := by
  cases hbe : batchErr embed b with
  | none =>
    simp only [Option.isSome_none]
    constructor
    · intro h; cases h
    · intro ⟨p, hp, hf⟩
      have := (batchErr_none_iff embed b).mp hbe p hp
      rw [this] at hf
      cases hf
  | some e =>
    simp only [Option.isSome_some, true_iff]
    by_contra hnone
    push_neg at hnone
    have : ∀ p ∈ b, chunkFails embed p.1 = false := by
      intro p hp
      have := hnone p hp
      revert this
      cases chunkFails embed p.1 <;> simp
    rw [(batchErr_none_iff embed b).mpr this] at hbe
    cases hbe

theorem runBatches_spec (embed : Str → Except Unit (List Int)) :
    ∀ (bs : List (List (Str × Nat))),
      (runBatches embed bs).1 = batchSaved embed (processedChunks embed bs) ∧
      ((runBatches embed bs).2.isSome = true ↔
        ∃ p ∈ processedChunks embed bs, chunkFails embed p.1 = true) := by
  intro bs
  induction bs with
  | nil =>
    refine ⟨rfl, ?_⟩
    simp [runBatches, processedChunks]
  | cons b rest ih =>
    simp only [runBatches, processedChunks]
    cases hbe : batchErr embed b with
    | some e =>
      rw [if_pos (by rfl)]
      refine ⟨rfl, ?_⟩
      simp only [Option.isSome_some, true_iff]
      exact (batchErr_isSome_iff embed b).mp (by rw [hbe]; rfl)
    | none =>
      rw [if_neg (by simp)]
      have hfb : ∀ p ∈ b, chunkFails embed p.1 = false :=
        (batchErr_none_iff embed b).mp hbe
      constructor
      · simp only [batchSaved, List.filterMap_append]
        rw [ih.1]
        rfl
      · simp only
        rw [ih.2]
        constructor
        · intro ⟨p, hp, hf⟩
          exact ⟨p, List.mem_append_right _ hp, hf⟩
        · intro ⟨p, hp, hf⟩
          rcases List.mem_append.mp hp with hp | hp
          · rw [hfb p hp] at hf
            cases hf
          · exact ⟨p, hp, hf⟩

/-- Counterexample for C3 as stated: two passages in the same batch, one
with a valid 1536-vector, one whose embedding has dimension 3.  The call
raises the invalid-embedding error, but the sibling that validated is
persisted: the batch is not rolled back, so "no passage of that batch is
persisted" fails. -/
theorem partial_batch_counterexample :
    (processDocumentForRAG embedTest "t".data "c".data [goodStr, badStr]
        none "u".data).result = some PErr.invalidEmbedding ∧
    (processDocumentForRAG embedTest "t".data "c".data [goodStr, badStr]
        none "u".data).saved =
      [⟨goodStr, List.replicate 1536 (0 : Int), 0⟩] := by
  have heg : embedTest goodStr = Except.ok (List.replicate 1536 (0 : Int)) := by
    unfold embedTest
    rw [if_pos rfl]
  have heb : embedTest badStr = Except.ok [0, 0, 0] := by
    unfold embedTest
    rw [if_neg (by decide)]
  have hcg : chunkClean goodStr = goodStr := by decide
  have hg : chunkOutcome embedTest goodStr =
      Except.ok (List.replicate 1536 (0 : Int), goodStr) := by
    simp only [chunkOutcome, heg, List.length_replicate]
    rw [if_pos trivial, hcg, if_neg (by decide)]
  have hb : chunkOutcome embedTest badStr = Except.error PErr.invalidEmbedding := by
    simp only [chunkOutcome, heb]
    rw [if_neg (by decide)]
  have hbs : chunksOf 10 (withIdxFrom 0 [goodStr, badStr]) =
      [[(goodStr, 0), (badStr, 1)]] := by
    simp only [withIdxFrom]
    unfold chunksOf
    rw [if_neg (by decide), if_pos (by decide), if_neg (by decide)]
  have hbe : batchErr embedTest [(goodStr, 0), (badStr, 1)] =
      some PErr.invalidEmbedding := by
    simp only [batchErr, List.findSome?_cons, List.findSome?_nil, hg, hb]
  have hsv : batchSaved embedTest [(goodStr, 0), (badStr, 1)] =
      [⟨goodStr, List.replicate 1536 (0 : Int), 0⟩] := by
    simp only [batchSaved, List.filterMap_cons, List.filterMap_nil, hg, hb]
  have hrun : runBatches embedTest [[(goodStr, 0), (badStr, 1)]] =
      ([⟨goodStr, List.replicate 1536 (0 : Int), 0⟩],
       some PErr.invalidEmbedding) := by
    simp only [runBatches, hbe, hsv]
  unfold processDocumentForRAG
  rw [hbs, hrun]
  exact ⟨rfl, rfl⟩

/-- Claim C3, amended: a wrong-dimension embedding raises a hard error (not
a silent coercion) and the ingestion call aborts after the failing batch (no
later batch is started); within the failing batch, each passage's promise
runs independently, so siblings whose own embedding validated (and whose
sanitized content is nonempty) are still persisted.  The persisted passages
are exactly the passing passages of the batches processed, so their count
equals the count of per-passage validation successes among processed
passages (partial-batch persistence is possible, contrary to the claim as
stated). -/
theorem processDocumentForRAG_partial_batch
    (embed : Str → Except Unit (List Int)) (title content : Str)
    (chunks : List Str) (source : Option Str) (userId : Str) :
    (processDocumentForRAG embed title content chunks source userId).saved =
      batchSaved embed
        (processedChunks embed (chunksOf 10 (withIdxFrom 0 chunks))) ∧
    ((processDocumentForRAG embed title content chunks source userId).result.isSome
        = true ↔
      ∃ p ∈ processedChunks embed (chunksOf 10 (withIdxFrom 0 chunks)),
        chunkFails embed p.1 = true) := by
  unfold processDocumentForRAG
  exact runBatches_spec embed (chunksOf 10 (withIdxFrom 0 chunks))

/-! ## Claim C8: retrieval defaults and the empty result -/

/-- Claim C8: `searchRelevantChunks` called without explicit limit or
threshold uses limit 5 and threshold 0.3, and when no stored passage
reaches the threshold it returns an empty sequence (a normal `ok` result,
not an error). -/
theorem searchRelevantChunks_defaults (sim : RagChunkRow → ℚ)
    (store : List RagChunkRow) (uid : Option Str)
    (embedRes : Except Unit (List Int)) (v : List Int)
    (hok : embedRes = Except.ok v) (hlow : ∀ r ∈ store, sim r < 3 / 10) :
    searchRelevantChunks sim store embedRes uid none none =
      Except.ok (searchSimilarChunks sim store 5 (3 / 10) uid) ∧
    searchRelevantChunks sim store embedRes uid none none = Except.ok [] := by
  have hdef : searchRelevantChunks sim store embedRes uid none none =
      Except.ok (searchSimilarChunks sim store 5 (3 / 10) uid) := by
    unfold searchRelevantChunks
    rw [hok]
    rfl
  refine ⟨hdef, ?_⟩
  rw [hdef]
  have hfilter : store.filter (fun r =>
      (match uid with | none => true | some u => decide (r.userId = u)) &&
      decide (3 / 10 ≤ sim r)) = [] := by
    rw [List.filter_eq_nil_iff]
    intro r hr
    have := hlow r hr
    simp [not_le.mpr this]
  unfold searchSimilarChunks
  rw [hfilter]
  rfl

/-- Witness for C8: a store holding one passage at similarity 0.25 with the
default threshold 0.3 yields the empty sequence, not an error. -/
theorem searchRelevantChunks_defaults_witness :
    (Except.ok [] : Except Unit (List Int)) = Except.ok [] ∧
    (∀ r ∈ [RagChunkRow.mk "p".data "u".data], (fun _ => (1 : ℚ) / 4) r < 3 / 10) ∧
    (searchRelevantChunks (fun _ => (1 : ℚ) / 4) [RagChunkRow.mk "p".data "u".data]
        (Except.ok []) none none none =
      Except.ok (searchSimilarChunks (fun _ => (1 : ℚ) / 4)
        [RagChunkRow.mk "p".data "u".data] 5 (3 / 10) none) ∧
     searchRelevantChunks (fun _ => (1 : ℚ) / 4) [RagChunkRow.mk "p".data "u".data]
        (Except.ok []) none none none = Except.ok []) :=
  ⟨rfl, by intro r _; norm_num,
   searchRelevantChunks_defaults (fun _ => (1 : ℚ) / 4)
     [RagChunkRow.mk "p".data "u".data] none (Except.ok []) [] rfl
     (by intro r _; norm_num)⟩

end GraphChatbot
